import Mathlib

/-!
Verification of the data cleaning and deduplication pipeline
(`week2/Data Cleaning & Deduplication/main.py`, class `DataCleaner`).

The pipeline's text operations are embedded shallowly over `List Char`
(a document is its character list).  Python's `str.split()` (whitespace
split), `str.split(sep)`, `re` pattern matching with backtracking and
word boundaries, and `re.sub` are modelled executably; the regular
expressions are the four PII patterns of `DataCleaner.__init__`.
Character classes are modelled at ASCII level (all concrete inputs of
the source are ASCII).
-/

namespace DataCleaning

/-- Whitespace characters recognised by Python's `str.split()` /  `\s`
(ASCII range). -/
def isSpaceCh (c : Char) : Bool :=
  c = ' ' || c = '\t' || c = '\n' || c = '\r' || c = Char.ofNat 11 || c = Char.ofNat 12

/-- Word characters for the regex word boundary `\b` (ASCII `\w`). -/
def isWordCh (c : Char) : Bool :=
  c.isAlpha || c.isDigit || c = '_'

/-- Python `str.split()`: split on runs of whitespace, dropping empty
pieces.  `acc` is the (reversed) token currently being read. -/
def splitWsAux (acc : List Char) : List Char → List (List Char)
  | [] => if acc.isEmpty then [] else [acc.reverse]
  | c :: t =>
      if isSpaceCh c then
        if acc.isEmpty then splitWsAux [] t else acc.reverse :: splitWsAux [] t
      else splitWsAux (c :: acc) t

/-- Python `doc.split()` (whitespace tokenization). -/
def pysplit (s : List Char) : List (List Char) := splitWsAux [] s

/-- Number of maximal nonwhitespace runs, tracked with a state flag
(`inTok` = previous character was nonwhitespace). -/
def nb (inTok : Bool) : List Char → Nat
  | [] => 0
  | c :: t =>
      if isSpaceCh c then nb false t
      else (if inTok then 0 else 1) + nb true t

/-- Whitespace-token count of a document. -/
def nblocks (s : List Char) : Nat := nb false s

/-- State of the run tracker after reading `s`. -/
def stAfter (st : Bool) : List Char → Bool
  | [] => st
  | c :: t => stAfter (!isSpaceCh c) t

theorem splitWsAux_length (s : List Char) :
    ∀ acc, (splitWsAux acc s).length = (if acc.isEmpty then 0 else 1) + nb (!acc.isEmpty) s := by
  induction s with
  | nil =>
      intro acc
      cases acc <;> simp [splitWsAux, nb]
  | cons c t ih =>
      intro acc
      by_cases hc : isSpaceCh c
      · cases acc <;> simp [splitWsAux, nb, hc, ih] <;> omega
      · cases acc <;> simp [splitWsAux, nb, hc, ih]

/-- The token count of `pysplit` is the number of maximal nonwhitespace
runs. -/
theorem pysplit_length (s : List Char) : (pysplit s).length = nblocks s := by
  simpa [pysplit, nblocks] using splitWsAux_length s []

theorem nb_append (a b : List Char) : ∀ st, nb st (a ++ b) = nb st a + nb (stAfter st a) b := by
  induction a with
  | nil => intro st; simp [nb, stAfter]
  | cons c t ih =>
      intro st
      by_cases hc : isSpaceCh c <;> simp [nb, stAfter, hc, ih] <;> omega

theorem nb_true_le_false (b : List Char) : nb true b ≤ nb false b := by
  cases b with
  | nil => simp [nb]
  | cons c t =>
      by_cases hc : isSpaceCh c <;> simp [nb, hc]

theorem nb_false_le_true_succ (b : List Char) : nb false b ≤ 1 + nb true b := by
  cases b with
  | nil => simp [nb]
  | cons c t =>
      by_cases hc : isSpaceCh c <;> simp [nb, hc]

theorem nb_nonempty_of_stAfter_false_true (m : List Char) :
    ∀ st, stAfter st m = true → st = false → 1 ≤ nb false m := by
  induction m with
  | nil => intro st h hst; rw [hst] at h; exact absurd h (by simp [stAfter])
  | cons c t ih =>
      intro st h hst
      by_cases hc : isSpaceCh c
      · simp [stAfter, hc] at h
        simpa [nb, hc] using ih false h rfl
      · simp [nb, hc]

theorem nb_pos_of_mem_nonspace (m : List Char) :
    ∀ c, c ∈ m → isSpaceCh c = false → 1 ≤ nb false m := by
  induction m with
  | nil => intro c hc; simp at hc
  | cons d t ih =>
      intro c hc hns
      by_cases hd : isSpaceCh d
      · rcases List.mem_cons.mp hc with h | h
        · subst h; rw [hns] at hd; cases hd
        · simpa [nb, hd] using ih c h hns
      · simp [nb, hd]

theorem nb_true_le_any (st : Bool) (b : List Char) : nb true b ≤ nb st b := by
  cases st
  · exact nb_true_le_false b
  · exact le_refl _

theorem nb_any_le_false (st : Bool) (b : List Char) : nb st b ≤ nb false b := by
  cases st
  · exact le_refl _
  · exact nb_true_le_false b

/-- Dropping an infix never increases the whitespace-token count. -/
theorem nblocks_remove_le (a m b : List Char) :
    nblocks (a ++ b) ≤ nblocks (a ++ (m ++ b)) := by
  unfold nblocks
  rw [nb_append, nb_append, nb_append]
  have h2 : nb (stAfter false a) b ≤
      nb (stAfter false a) m + nb (stAfter (stAfter false a) m) b := by
    cases h1 : stAfter false a with
    | false =>
        cases h2 : stAfter false m with
        | false => exact Nat.le_add_left _ _
        | true =>
            have hm := nb_nonempty_of_stAfter_false_true m false h2 rfl
            have hb := nb_false_le_true_succ b
            omega
    | true =>
        cases h2 : stAfter true m with
        | false =>
            have hb := nb_true_le_false b
            omega
        | true => exact Nat.le_add_left _ _
  omega

/-- Does `sep` lead the string `s`? -/
def beginsWith : List Char → List Char → Bool
  | [], _ => true
  | _ :: _, [] => false
  | c :: cs, d :: ds => c = d && beginsWith cs ds

theorem beginsWith_eq_append (sep : List Char) :
    ∀ s, beginsWith sep s = true → s = sep ++ s.drop sep.length := by
  induction sep with
  | nil => intro s _; simp
  | cons c cs ih =>
      intro s h
      cases s with
      | nil => simp [beginsWith] at h
      | cons d ds =>
          simp only [beginsWith, Bool.and_eq_true, decide_eq_true_eq] at h
          obtain ⟨rfl, h2⟩ := h
          simpa [List.drop] using ih ds h2

/-- Python `doc.split(sep)` for a non-empty `sep`: cut at every
occurrence of `sep`, scanning left to right.  `acc` holds the
(reversed) piece being read; `f` is fuel bounding the remaining
length. -/
def splitOnAux (sep : List Char) : Nat → List Char → List Char → List (List Char)
  | _, acc, [] => [acc.reverse]
  | 0, acc, s => [acc.reverse ++ s]
  | f + 1, acc, c :: t =>
      if beginsWith sep (c :: t) then
        acc.reverse :: splitOnAux sep f [] (List.drop sep.length (c :: t))
      else splitOnAux sep f (c :: acc) t

/-- Python `doc.split(sep)`. -/
def splitOnStr (sep s : List Char) : List (List Char) := splitOnAux sep (s.length + 1) [] s

/-- Join pieces back, placing `sep` between consecutive pieces. -/
def interList (sep : List Char) : List (List Char) → List Char
  | [] => []
  | [x] => x
  | x :: y :: rest => x ++ sep ++ interList sep (y :: rest)

theorem splitOnAux_ne_nil (sep : List Char) (f : Nat) (acc s : List Char) :
    splitOnAux sep f acc s ≠ [] := by
  match f, s with
  | _, [] => simp [splitOnAux]
  | 0, c :: t => simp [splitOnAux]
  | f + 1, c :: t =>
      by_cases h : beginsWith sep (c :: t) = true
      · simp [splitOnAux, h]
      · simp only [splitOnAux, h]
        exact splitOnAux_ne_nil sep f (c :: acc) t

theorem interList_cons_of_ne_nil (sep x : List Char) (rest : List (List Char))
    (h : rest ≠ []) : interList sep (x :: rest) = x ++ sep ++ interList sep rest := by
  cases rest with
  | nil => exact absurd rfl h
  | cons y r => rfl

theorem splitOnAux_interList (sep : List Char) (hsep : sep ≠ []) :
    ∀ (f : Nat) (acc s : List Char), s.length ≤ f →
      interList sep (splitOnAux sep f acc s) = acc.reverse ++ s := by
  intro f
  induction f with
  | zero =>
      intro acc s hs
      have : s = [] := List.eq_nil_of_length_eq_zero (Nat.le_zero.mp hs)
      subst this
      simp [splitOnAux, interList]
  | succ f ih =>
      intro acc s hs
      cases s with
      | nil => simp [splitOnAux, interList]
      | cons c t =>
          by_cases h : beginsWith sep (c :: t) = true
          · rw [splitOnAux, if_pos h]
            have hlen : (List.drop sep.length (c :: t)).length ≤ f := by
              have h1 : 1 ≤ sep.length := by
                cases sep with
                | nil => exact absurd rfl hsep
                | cons a b => simp
              simp only [List.length_drop, List.length_cons] at *
              omega
            rw [interList_cons_of_ne_nil sep _ _ (splitOnAux_ne_nil sep f [] _)]
            rw [ih [] _ hlen]
            rw [List.reverse_nil, List.nil_append]
            rw [List.append_assoc]
            congr 1
            exact (beginsWith_eq_append sep (c :: t) h).symm
          · rw [splitOnAux, if_neg h]
            rw [ih (c :: acc) t (by simpa using hs)]
            simp

/-- `doc.split(sep)` followed by re-joining with `sep` gives back
`doc`. -/
theorem interList_splitOnStr (sep s : List Char) (hsep : sep ≠ []) :
    interList sep (splitOnStr sep s) = s := by
  simpa using splitOnAux_interList sep hsep (s.length + 1) [] s (by omega)

theorem nblocks_join_le_interList (sep : List Char) :
    ∀ (ps : List (List Char)) (A : List Char),
      nblocks (A ++ ps.flatten) ≤ nblocks (A ++ interList sep ps) := by
  intro ps
  induction ps with
  | nil => intro A; exact le_refl _
  | cons p rest ih =>
      intro A
      cases rest with
      | nil => simp [interList]
      | cons q r =>
          have h1 : nblocks ((A ++ p) ++ (q :: r).flatten) ≤
              nblocks ((A ++ p) ++ interList sep (q :: r)) := ih (A ++ p)
          have h2 : nblocks ((A ++ p) ++ interList sep (q :: r)) ≤
              nblocks ((A ++ p) ++ (sep ++ interList sep (q :: r))) :=
            nblocks_remove_le (A ++ p) sep (interList sep (q :: r))
          calc nblocks (A ++ (p :: q :: r).flatten)
              = nblocks ((A ++ p) ++ (q :: r).flatten) := by simp
            _ ≤ nblocks ((A ++ p) ++ interList sep (q :: r)) := h1
            _ ≤ nblocks ((A ++ p) ++ (sep ++ interList sep (q :: r))) := h2
            _ = nblocks (A ++ interList sep (p :: q :: r)) := by
                rw [interList_cons_of_ne_nil sep p (q :: r) (by simp)]
                simp

/-! ## Repetitive n-gram removal (`DataCleaner.remove_repetitive_ngrams`) -/

/-- The list `[tuple(words[i:i+n]) for i in range(len(words) - n + 1)]`. -/
def ngramsOf (n : Nat) (ws : List (List Char)) : List (List (List Char)) :=
  if ws.length < n then []
  else (List.range (ws.length - n + 1)).map (fun i => (ws.drop i).take n)

/-- One `Counter` increment: bump the count of `g`, first occurrence
order preserved (Python dict insertion order). -/
def bump (g : List (List Char)) : List (List (List Char) × Nat) → List (List (List Char) × Nat)
  | [] => [(g, 1)]
  | (h, c) :: t => if h = g then (h, c + 1) :: t else (h, c) :: bump g t

/-- `Counter` built over the n-gram list, iterated in first-occurrence
order. -/
def countNgrams (gs : List (List (List Char))) : List (List (List Char) × Nat) :=
  gs.foldl (fun acc g => bump g acc) []

/-- `' '.join(ngram)`. -/
def joinSpace (g : List (List Char)) : List Char := interList [' '] g

/-- The rewrite
`parts = doc.split(ngram_str); if len(parts) > 1: doc = parts[0] + ngram_str + ''.join(parts[1:])`. -/
def collapseOnce (sep doc : List Char) : List Char :=
  match splitOnStr sep doc with
  | [] => doc
  | p :: rest => if rest.isEmpty then doc else p ++ sep ++ rest.flatten

/-- The inner loop over `ngram_counts.items()` for one window size. -/
def processNgramPass (threshold : Nat) (counts : List (List (List Char) × Nat))
    (doc : List Char) : List Char :=
  counts.foldl (fun d gc => if threshold ≤ gc.2 then collapseOnce (joinSpace gc.1) d else d) doc

/-- `remove_repetitive_ngrams` applied to one document: tokenize once,
short documents pass through, then one pass per `n in range(2, max_ngram+1)`,
each pass counting n-grams over the words of the **original** document
(the source computes `words = doc.split()` once, before the loop). -/
def removeRepNgramsDoc (maxNgram threshold : Nat) (doc : List Char) : List Char :=
  let words := pysplit doc
  if words.length < maxNgram then doc
  else (List.range' 2 (maxNgram - 1)).foldl
    (fun d n => processNgramPass threshold (countNgrams (ngramsOf n words)) d) doc

/-- `DataCleaner.remove_repetitive_ngrams` (defaults `max_ngram=3`,
`threshold=3`): the per-document rewrite applied to each document in
order. -/
def removeRepetitiveNgrams (maxNgram threshold : Nat) : List (List Char) → List (List Char)
  | [] => []
  | d :: rest =>
      removeRepNgramsDoc maxNgram threshold d :: removeRepetitiveNgrams maxNgram threshold rest

/-- Modelled from the spec: the spec sentence for the repetition
compressor says n-gram detection for each pass tokenizes the *current*
(already rewritten) text, i.e. `words` is recomputed from the current
document at the start of each pass.  This variant follows those words;
the source instead tokenizes once.  Used only to compare against
`removeRepNgramsDoc`. -/
def removeRepNgramsDocSpecWords (maxNgram threshold : Nat) (doc : List Char) : List Char :=
  let words0 := pysplit doc
  if words0.length < maxNgram then doc
  else (List.range' 2 (maxNgram - 1)).foldl
    (fun d n => processNgramPass threshold (countNgrams (ngramsOf n (pysplit d))) d) doc

theorem collapseOnce_nblocks_le (sep doc : List Char) (hsep : sep ≠ []) :
    nblocks (collapseOnce sep doc) ≤ nblocks doc := by
  unfold collapseOnce
  cases h : splitOnStr sep doc with
  | nil => exact le_refl _
  | cons p rest =>
      by_cases hr : rest.isEmpty
      · simp [hr]
      · simp only [hr, if_neg, Bool.false_eq_true, not_false_eq_true]
        have hid : interList sep (p :: rest) = doc := by
          rw [← h]; exact interList_splitOnStr sep doc hsep
        have h1 : nblocks ((p ++ sep) ++ rest.flatten) ≤
            nblocks ((p ++ sep) ++ interList sep rest) :=
          nblocks_join_le_interList sep rest (p ++ sep)
        have hrne : rest ≠ [] := by
          cases rest with
          | nil => simp at hr
          | cons a b => simp
        calc nblocks (p ++ sep ++ rest.flatten)
            ≤ nblocks ((p ++ sep) ++ interList sep rest) := by
              simpa [List.append_assoc] using h1
          _ = nblocks doc := by
              rw [← hid, interList_cons_of_ne_nil sep p rest hrne]

theorem mem_bump (g : List (List Char)) (p : List (List Char) × Nat) :
    ∀ acc, p ∈ bump g acc → p.1 = g ∨ p ∈ acc := by
  intro acc
  induction acc with
  | nil =>
      intro h
      simp only [bump, List.mem_singleton] at h
      left; rw [h]
  | cons hd t ih =>
      obtain ⟨hg, hc⟩ := hd
      intro h
      by_cases he : hg = g
      · rw [show bump g ((hg, hc) :: t) = (hg, hc + 1) :: t from by
          simp [bump, he]] at h
        rcases List.mem_cons.mp h with h1 | h1
        · left; rw [h1]; exact he
        · right; exact List.mem_cons_of_mem _ h1
      · rw [show bump g ((hg, hc) :: t) = (hg, hc) :: bump g t from by
          simp [bump, he]] at h
        rcases List.mem_cons.mp h with h1 | h1
        · right; rw [h1]; exact List.mem_cons_self _ _
        · rcases ih h1 with h2 | h2
          · left; exact h2
          · right; exact List.mem_cons_of_mem _ h2

theorem mem_countNgrams (gs : List (List (List Char))) (p : List (List Char) × Nat) :
    ∀ acc, p ∈ gs.foldl (fun acc g => bump g acc) acc → p ∈ acc ∨ p.1 ∈ gs := by
  induction gs with
  | nil => intro acc h; left; simpa using h
  | cons g t ih =>
      intro acc h
      rcases ih (bump g acc) h with h1 | h1
      · rcases mem_bump g p acc h1 with h2 | h2
        · right; rw [h2]; exact List.mem_cons_self _ _
        · left; exact h2
      · right; exact List.mem_cons_of_mem _ h1

theorem mem_ngramsOf_length (n : Nat) (ws : List (List Char)) (g : List (List Char))
    (h : g ∈ ngramsOf n ws) : g.length = n := by
  unfold ngramsOf at h
  by_cases hlen : ws.length < n
  · simp [hlen] at h
  · rw [if_neg hlen] at h
    obtain ⟨i, hi, hg⟩ := List.mem_map.mp h
    rw [List.mem_range] at hi
    rw [← hg]
    rw [List.length_take, List.length_drop]
    omega

theorem joinSpace_ne_nil (g : List (List Char)) (h : 2 ≤ g.length) :
    joinSpace g ≠ [] := by
  cases g with
  | nil => simp at h
  | cons x rest =>
      cases rest with
      | nil => simp at h
      | cons y r => simp [joinSpace, interList]

theorem foldl_nblocks_le {α : Type} (step : List Char → α → List Char) (l : List α)
    (h : ∀ d x, x ∈ l → nblocks (step d x) ≤ nblocks d) :
    ∀ d, nblocks (l.foldl step d) ≤ nblocks d := by
  induction l with
  | nil => intro d; exact le_refl _
  | cons x t ih =>
      intro d
      calc nblocks (List.foldl step (step d x) t)
          ≤ nblocks (step d x) := ih (fun d' y hy => h d' y (List.mem_cons_of_mem _ hy)) _
        _ ≤ nblocks d := h d x (List.mem_cons_self _ _)

/-- One whole document through the n-gram compressor never gains
whitespace tokens. -/
theorem removeRepNgramsDoc_nblocks_le (maxNgram threshold : Nat) (doc : List Char) :
    nblocks (removeRepNgramsDoc maxNgram threshold doc) ≤ nblocks doc := by
  unfold removeRepNgramsDoc
  by_cases hw : (pysplit doc).length < maxNgram
  · simp [hw]
  · rw [if_neg hw]
    refine foldl_nblocks_le _ _ ?_ doc
    intro d n hn
    unfold processNgramPass
    refine foldl_nblocks_le _ _ ?_ d
    intro d' gc hgc
    by_cases hth : threshold ≤ gc.2
    · rw [if_pos hth]
      have hmem := mem_countNgrams (ngramsOf n (pysplit doc)) gc [] hgc
      rcases hmem with h1 | h1
      · simp at h1
      · have hlen : gc.1.length = n := mem_ngramsOf_length n (pysplit doc) gc.1 h1
        have hn2 : 2 ≤ n := by
          rcases List.mem_range'_1.mp hn with ⟨h2, _⟩
          exact h2
        exact collapseOnce_nblocks_le _ d' (joinSpace_ne_nil gc.1 (hlen ▸ hn2))
    · rw [if_neg hth]

/-! ## A backtracking regex engine (Python `re` semantics for the four
PII patterns: leftmost match, greedy quantifiers with backtracking,
word boundaries). -/

/-- Is the character at position `i` (if any) a word character? -/
def wordAt (s : List Char) (i : Nat) : Bool :=
  match s.get? i with
  | some c => isWordCh c
  | none => false

/-- Is the character just before position `i` a word character? -/
def prevWordAt (s : List Char) : Nat → Bool
  | 0 => false
  | j + 1 => wordAt s j

/-- The `\b` word-boundary test at position `i`. -/
def boundary (s : List Char) (i : Nat) : Bool := prevWordAt s i != wordAt s i

/-- Regular expressions as used by the PII patterns: character classes,
sequencing, preferred-first alternation, greedy option, word boundary,
greedy `p{n,}` and exact `p{n}` over single-character classes. -/
inductive Rx where
  | eps : Rx
  | cls : (Char → Bool) → Rx
  | seq : Rx → Rx → Rx
  | alt : Rx → Rx → Rx
  | opt : Rx → Rx
  | bnd : Rx
  | repGe : (Char → Bool) → Nat → Rx
  | repEx : (Char → Bool) → Nat → Rx

/-- Length of the maximal run of `p`-characters at the head. -/
def runAux (p : Char → Bool) : List Char → Nat
  | [] => 0
  | c :: t => if p c then runAux p t + 1 else 0

/-- Length of the maximal run of `p`-characters starting at `i`. -/
def runLen (p : Char → Bool) (s : List Char) (i : Nat) : Nat := runAux p (s.drop i)

/-- Greedy backtracking over a run: try the continuation at
`base + n`, `base + n - 1`, …, `base`, first success wins. -/
def tryDown (k : Nat → Option Nat) (base : Nat) : Nat → Option Nat
  | 0 => k base
  | n + 1 =>
      match k (base + (n + 1)) with
      | some r => some r
      | none => tryDown k base n

/-- The backtracking matcher in continuation style: `mtch s r i k`
matches `r` at position `i` of `s` and calls `k` with the position
after the consumed characters; alternatives are tried in Python's
preference order (left/greedy first). -/
def mtch (s : List Char) : Rx → Nat → (Nat → Option Nat) → Option Nat
  | .eps, i, k => k i
  | .cls p, i, k =>
      match s.get? i with
      | some c => if p c then k (i + 1) else none
      | none => none
  | .seq a b, i, k => mtch s a i (fun j => mtch s b j k)
  | .alt a b, i, k =>
      match mtch s a i k with
      | some r => some r
      | none => mtch s b i k
  | .opt a, i, k =>
      match mtch s a i k with
      | some r => some r
      | none => k i
  | .bnd, i, k => if boundary s i then k i else none
  | .repGe p n, i, k =>
      if runLen p s i < n then none else tryDown k (i + n) (runLen p s i - n)
  | .repEx p n, i, k => if n ≤ runLen p s i then k (i + n) else none

/-- End position of the preferred match of `r` at position `i`, if
any. -/
def matchAt (s : List Char) (r : Rx) (i : Nat) : Option Nat := mtch s r i some

/-- Scan positions `i, i+1, …` (with fuel `f`) for the leftmost
match; returns `(start, stop)`. -/
def scanPos (s : List Char) (r : Rx) : Nat → Nat → Option (Nat × Nat)
  | 0, _ => none
  | f + 1, i =>
      if i ≤ s.length then
        match matchAt s r i with
        | some j => some (i, j)
        | none => scanPos s r f (i + 1)
      else none

/-- Leftmost match of `r` in `s` starting at or after `i`. -/
def findFrom (s : List Char) (r : Rx) (i : Nat) : Option (Nat × Nat) :=
  scanPos s r (s.length + 1 - i) i

/-- `s[i:j]`. -/
def extract (s : List Char) (i j : Nat) : List Char := (s.drop i).take (j - i)

/-- `re.sub` loop over the original string: find the leftmost match at
or after `pos`, emit the gap and the replacement, continue after the
match. -/
def subLoop (s : List Char) (r : Rx) (repl : List Char) : Nat → Nat → List Char
  | 0, pos => s.drop pos
  | f + 1, pos =>
      match findFrom s r pos with
      | none => s.drop pos
      | some (a, b) => extract s pos a ++ repl ++ subLoop s r repl f b

/-- `pattern.sub(repl, s)`. -/
def pysub (r : Rx) (repl s : List Char) : List Char := subLoop s r repl (s.length + 1) 0

/-! ## The four PII patterns of `DataCleaner.__init__` -/

/-- `[A-Za-z0-9._%+-]` (email local part). -/
def localCls (c : Char) : Bool :=
  c.isAlpha || c.isDigit || c = '.' || c = '_' || c = '%' || c = '+' || c = '-'

/-- `[A-Za-z0-9.-]` (email domain). -/
def domainCls (c : Char) : Bool := c.isAlpha || c.isDigit || c = '.' || c = '-'

/-- `[A-Z|a-z]` (email TLD; the class literally contains `|`). -/
def tldCls (c : Char) : Bool := c.isAlpha || c = '|'

/-- `\d`. -/
def digitCls (c : Char) : Bool := c.isDigit

/-- `[-\s]` (credit-card group separator). -/
def ccSepCls (c : Char) : Bool := c = '-' || isSpaceCh c

/-- `[-.\s]` (phone separator). -/
def phSepCls (c : Char) : Bool := c = '-' || c = '.' || isSpaceCh c

/-- `\b[A-Za-z0-9._%+-]+@[A-Za-z0-9.-]+\.[A-Z|a-z]{2,}\b`. -/
def emailRx : Rx :=
  .seq .bnd (.seq (.repGe localCls 1) (.seq (.cls (fun c => c = '@'))
    (.seq (.repGe domainCls 1) (.seq (.cls (fun c => c = '.'))
      (.seq (.repGe tldCls 2) .bnd)))))

/-- `\d{4}[-\s]?` (one credit-card group). -/
def ccGroup : Rx := .seq (.repEx digitCls 4) (.opt (.cls ccSepCls))

/-- `\b(?:\d{4}[-\s]?){3}\d{4}\b`. -/
def ccRx : Rx :=
  .seq .bnd (.seq ccGroup (.seq ccGroup (.seq ccGroup
    (.seq (.repEx digitCls 4) .bnd))))

/-- `\b(?:\+?1[-.\s]?)?\(?[0-9]{3}\)?[-.\s]?[0-9]{3}[-.\s]?[0-9]{4}\b`. -/
def phoneRx : Rx :=
  .seq .bnd (.seq (.opt (.seq (.opt (.cls (fun c => c = '+')))
      (.seq (.cls (fun c => c = '1')) (.opt (.cls phSepCls)))))
    (.seq (.opt (.cls (fun c => c = '(')))
      (.seq (.repEx digitCls 3) (.seq (.opt (.cls (fun c => c = ')')))
        (.seq (.opt (.cls phSepCls)) (.seq (.repEx digitCls 3)
          (.seq (.opt (.cls phSepCls)) (.seq (.repEx digitCls 4) .bnd))))))))

/-- `\b\d{3}-\d{2}-\d{4}\b`. -/
def ssnRx : Rx :=
  .seq .bnd (.seq (.repEx digitCls 3) (.seq (.cls (fun c => c = '-'))
    (.seq (.repEx digitCls 2) (.seq (.cls (fun c => c = '-'))
      (.seq (.repEx digitCls 4) .bnd)))))

/-- `f'[{pii_type.upper()}_REMOVED]'`. -/
def placeholder (name : List Char) : List Char :=
  '[' :: (name ++ "_REMOVED]".data)

/-- The `pii_patterns` table in its dict order
(email, credit_card, phone, ssn), with the upper-cased names. -/
def piiPatterns : List (List Char × Rx) :=
  [("EMAIL".data, emailRx), ("CREDIT_CARD".data, ccRx),
   ("PHONE".data, phoneRx), ("SSN".data, ssnRx)]

/-- `DataCleaner.remove_pii` applied to one document: for each pattern
in table order, if it has matches (`findall` non-empty), substitute
all of them with the placeholder. -/
def removePiiDoc (doc : List Char) : List Char :=
  piiPatterns.foldl (fun d pr =>
    if (findFrom d pr.2 0).isSome then pysub pr.2 (placeholder pr.1) d else d) doc

/-- `DataCleaner.remove_pii`: each document redacted, order kept. -/
def removePii : List (List Char) → List (List Char)
  | [] => []
  | d :: rest => removePiiDoc d :: removePii rest

/-! ## Properties of the matcher -/

theorem runAux_le_length (p : Char → Bool) : ∀ l : List Char, runAux p l ≤ l.length := by
  intro l
  induction l with
  | nil => simp [runAux]
  | cons c t ih =>
      by_cases hc : p c
      · simp only [runAux, hc, if_true, List.length_cons]
        omega
      · simp [runAux, hc]

theorem runLen_le (p : Char → Bool) (s : List Char) (i : Nat) :
    runLen p s i ≤ s.length - i := by
  have := runAux_le_length p (s.drop i)
  simpa [runLen] using this

/-! ## Properties of the matcher -/

theorem runLen_pos_head (p : Char → Bool) (s : List Char) (i : Nat)
    (h : 1 ≤ runLen p s i) : ∃ c, s.get? i = some c ∧ p c = true := by
  unfold runLen at h
  cases hd : s.drop i with
  | nil => rw [hd] at h; simp [runAux] at h
  | cons c t =>
      rw [hd] at h
      by_cases hc : p c
      · refine ⟨c, ?_, hc⟩
        have h0 : (s.drop i).get? 0 = s.get? i := by
          rw [List.get?_drop, Nat.add_zero]
        rw [← h0, hd]
        rfl
      · simp [runAux, hc] at h

theorem tryDown_spec (k : Nat → Option Nat) (base : Nat) :
    ∀ n b, tryDown k base n = some b → ∃ j, base ≤ j ∧ j ≤ base + n ∧ k j = some b := by
  intro n
  induction n with
  | zero => intro b h; exact ⟨base, le_refl _, by omega, h⟩
  | succ n ih =>
      intro b h
      unfold tryDown at h
      cases hk : k (base + (n + 1)) with
      | some r =>
          rw [hk] at h
          change some r = some b at h
          exact ⟨base + (n + 1), by omega, le_refl _, hk.trans h⟩
      | none =>
          rw [hk] at h
          change tryDown k base n = some b at h
          obtain ⟨j, h1, h2, h3⟩ := ih b h
          exact ⟨j, h1, by omega, h3⟩

/-! ### Inversion lemmas for the matcher, one per constructor -/

theorem mtch_eps_inv {s : List Char} {i : Nat} {k : Nat → Option Nat} {b : Nat}
    (h : mtch s .eps i k = some b) : k i = some b := h

theorem mtch_seq_inv {s : List Char} {a b' : Rx} {i : Nat} {k : Nat → Option Nat} {r : Nat}
    (h : mtch s (.seq a b') i k = some r) :
    mtch s a i (fun j => mtch s b' j k) = some r := h

theorem mtch_cls_inv {s : List Char} {p : Char → Bool} {i : Nat} {k : Nat → Option Nat} {b : Nat}
    (h : mtch s (.cls p) i k = some b) :
    ∃ c, s.get? i = some c ∧ p c = true ∧ k (i + 1) = some b := by
  unfold mtch at h
  cases hg : s.get? i with
  | none => rw [hg] at h; change (none : Option Nat) = some b at h; cases h
  | some c =>
      rw [hg] at h
      change (if p c = true then k (i + 1) else none) = some b at h
      by_cases hp : p c = true
      · rw [if_pos hp] at h; exact ⟨c, rfl, hp, h⟩
      · rw [if_neg hp] at h; cases h

theorem mtch_alt_inv {s : List Char} {a b' : Rx} {i : Nat} {k : Nat → Option Nat} {r : Nat}
    (h : mtch s (.alt a b') i k = some r) :
    mtch s a i k = some r ∨ (mtch s a i k = none ∧ mtch s b' i k = some r) := by
  unfold mtch at h
  cases hm : mtch s a i k with
  | some r0 =>
      rw [hm] at h
      change some r0 = some r at h
      left; exact h
  | none =>
      rw [hm] at h
      change mtch s b' i k = some r at h
      right; exact ⟨rfl, h⟩

theorem mtch_opt_inv {s : List Char} {a : Rx} {i : Nat} {k : Nat → Option Nat} {r : Nat}
    (h : mtch s (.opt a) i k = some r) :
    mtch s a i k = some r ∨ (mtch s a i k = none ∧ k i = some r) := by
  unfold mtch at h
  cases hm : mtch s a i k with
  | some r0 =>
      rw [hm] at h
      change some r0 = some r at h
      left; exact h
  | none =>
      rw [hm] at h
      change k i = some r at h
      right; exact ⟨rfl, h⟩

theorem mtch_bnd_inv {s : List Char} {i : Nat} {k : Nat → Option Nat} {b : Nat}
    (h : mtch s .bnd i k = some b) : boundary s i = true ∧ k i = some b := by
  unfold mtch at h
  by_cases hb : boundary s i = true
  · rw [if_pos hb] at h; exact ⟨hb, h⟩
  · rw [if_neg hb] at h; cases h

theorem mtch_repGe_inv {s : List Char} {p : Char → Bool} {n i : Nat}
    {k : Nat → Option Nat} {b : Nat} (h : mtch s (.repGe p n) i k = some b) :
    n ≤ runLen p s i ∧ ∃ j, i + n ≤ j ∧ j ≤ i + runLen p s i ∧ k j = some b := by
  unfold mtch at h
  by_cases hlt : runLen p s i < n
  · rw [if_pos hlt] at h; cases h
  · rw [if_neg hlt] at h
    obtain ⟨j, h1, h2, h3⟩ := tryDown_spec k (i + n) _ b h
    exact ⟨by omega, j, h1, by omega, h3⟩

theorem mtch_repEx_inv {s : List Char} {p : Char → Bool} {n i : Nat}
    {k : Nat → Option Nat} {b : Nat} (h : mtch s (.repEx p n) i k = some b) :
    n ≤ runLen p s i ∧ k (i + n) = some b := by
  unfold mtch at h
  by_cases hle : n ≤ runLen p s i
  · rw [if_pos hle] at h; exact ⟨hle, h⟩
  · rw [if_neg hle] at h; cases h

/-- The matcher moves forward and stays inside the string: a
successful run invokes the continuation at some `i ≤ j ≤ s.length`
whenever `i ≤ s.length`. -/
theorem mtch_some_bound (s : List Char) (r : Rx) :
    ∀ i k b, i ≤ s.length → mtch s r i k = some b →
      ∃ j, i ≤ j ∧ j ≤ s.length ∧ k j = some b := by
  induction r with
  | eps => intro i k b hi h; exact ⟨i, le_refl _, hi, h⟩
  | cls p =>
      intro i k b hi h
      obtain ⟨c, hg, hp, hk⟩ := mtch_cls_inv h
      have : i < s.length := (List.get?_eq_some.mp hg).1
      exact ⟨i + 1, by omega, by omega, hk⟩
  | seq a b' iha ihb =>
      intro i k b hi h
      obtain ⟨j1, hj1, hj1len, h1⟩ := iha i _ b hi (mtch_seq_inv h)
      obtain ⟨j2, hj2, hj2len, h2⟩ := ihb j1 k b hj1len h1
      exact ⟨j2, le_trans hj1 hj2, hj2len, h2⟩
  | alt a b' iha ihb =>
      intro i k b hi h
      rcases mtch_alt_inv h with h1 | ⟨_, h1⟩
      · exact iha i k b hi h1
      · exact ihb i k b hi h1
  | opt a iha =>
      intro i k b hi h
      rcases mtch_opt_inv h with h1 | ⟨_, h1⟩
      · exact iha i k b hi h1
      · exact ⟨i, le_refl _, hi, h1⟩
  | bnd =>
      intro i k b hi h
      exact ⟨i, le_refl _, hi, (mtch_bnd_inv h).2⟩
  | repGe p n =>
      intro i k b hi h
      obtain ⟨hn, j, h1, h2, h3⟩ := mtch_repGe_inv h
      have hr := runLen_le p s i
      exact ⟨j, by omega, by omega, h3⟩
  | repEx p n =>
      intro i k b hi h
      obtain ⟨hn, hk⟩ := mtch_repEx_inv h
      have hr := runLen_le p s i
      exact ⟨i + n, by omega, by omega, hk⟩

/-- Forward motion without the length hypothesis. -/
theorem mtch_some_mono (s : List Char) (r : Rx) :
    ∀ i k b, mtch s r i k = some b → ∃ j, i ≤ j ∧ k j = some b := by
  induction r with
  | eps => intro i k b h; exact ⟨i, le_refl _, h⟩
  | cls p =>
      intro i k b h
      obtain ⟨c, hg, hp, hk⟩ := mtch_cls_inv h
      exact ⟨i + 1, by omega, hk⟩
  | seq a b' iha ihb =>
      intro i k b h
      obtain ⟨j1, hj1, h1⟩ := iha i _ b (mtch_seq_inv h)
      obtain ⟨j2, hj2, h2⟩ := ihb j1 k b h1
      exact ⟨j2, le_trans hj1 hj2, h2⟩
  | alt a b' iha ihb =>
      intro i k b h
      rcases mtch_alt_inv h with h1 | ⟨_, h1⟩
      · exact iha i k b h1
      · exact ihb i k b h1
  | opt a iha =>
      intro i k b h
      rcases mtch_opt_inv h with h1 | ⟨_, h1⟩
      · exact iha i k b h1
      · exact ⟨i, le_refl _, h1⟩
  | bnd =>
      intro i k b h
      exact ⟨i, le_refl _, (mtch_bnd_inv h).2⟩
  | repGe p n =>
      intro i k b h
      obtain ⟨hn, j, h1, h2, h3⟩ := mtch_repGe_inv h
      exact ⟨j, by omega, h3⟩
  | repEx p n =>
      intro i k b h
      exact ⟨i + n, by omega, (mtch_repEx_inv h).2⟩

/-- Patterns whose every successful match consumes at least one
character. -/
inductive MustConsume : Rx → Prop
  | cls (p : Char → Bool) : MustConsume (.cls p)
  | seqL {a b : Rx} : MustConsume a → MustConsume (.seq a b)
  | seqR {a b : Rx} : MustConsume b → MustConsume (.seq a b)
  | alt {a b : Rx} : MustConsume a → MustConsume b → MustConsume (.alt a b)
  | repGe (p : Char → Bool) {n : Nat} : 1 ≤ n → MustConsume (.repGe p n)
  | repEx (p : Char → Bool) {n : Nat} : 1 ≤ n → MustConsume (.repEx p n)

/-- A consuming pattern calls its continuation strictly forward. -/
theorem mtch_mustConsume (s : List Char) {r : Rx} (hmc : MustConsume r) :
    ∀ i k b, mtch s r i k = some b → ∃ j, i + 1 ≤ j ∧ k j = some b := by
  induction hmc with
  | cls p =>
      intro i k b h
      obtain ⟨c, hg, hp, hk⟩ := mtch_cls_inv h
      exact ⟨i + 1, le_refl _, hk⟩
  | seqL hma ih =>
      intro i k b h
      obtain ⟨j, hj, h1⟩ := ih i _ b (mtch_seq_inv h)
      obtain ⟨j2, hj2, h2⟩ := mtch_some_mono s _ j k b h1
      exact ⟨j2, by omega, h2⟩
  | seqR hmb ih =>
      intro i k b h
      obtain ⟨j, hj, h1⟩ := mtch_some_mono s _ i _ b (mtch_seq_inv h)
      obtain ⟨j2, hj2, h2⟩ := ih j k b h1
      exact ⟨j2, by omega, h2⟩
  | alt hma hmb iha ihb =>
      intro i k b h
      rcases mtch_alt_inv h with h1 | ⟨_, h1⟩
      · exact iha i k b h1
      · exact ihb i k b h1
  | repGe p hn =>
      intro i k b h
      obtain ⟨hn2, j, h1, h2, h3⟩ := mtch_repGe_inv h
      exact ⟨j, by omega, h3⟩
  | repEx p hn =>
      intro i k b h
      obtain ⟨hn2, hk⟩ := mtch_repEx_inv h
      exact ⟨i + _, by omega, hk⟩

/-- Syntactic nullability: can the pattern match the empty string? -/
def nullb : Rx → Bool
  | .eps => true
  | .cls _ => false
  | .seq a b => nullb a && nullb b
  | .alt a b => nullb a || nullb b
  | .opt _ => true
  | .bnd => true
  | .repGe _ n => n = 0
  | .repEx _ n => n = 0

theorem not_nullb_of_mustConsume {r : Rx} (h : MustConsume r) : nullb r = false := by
  induction h with
  | cls p => rfl
  | seqL hma ih => simp [nullb, ih]
  | seqR hmb ih => simp [nullb, ih]
  | alt hma hmb iha ihb => simp [nullb, iha, ihb]
  | repGe p hn => simp [nullb]; omega
  | repEx p hn => simp [nullb]; omega

/-- A character class all of whose members are nonwhitespace. -/
def ClsNW (p : Char → Bool) : Prop := ∀ c, p c = true → isSpaceCh c = false

/-- Patterns whose matches, when they consume at all, start with a
nonwhitespace character. -/
inductive HeadNW : Rx → Prop
  | eps : HeadNW .eps
  | bnd : HeadNW .bnd
  | cls {p : Char → Bool} : ClsNW p → HeadNW (.cls p)
  | seqStrong {a b : Rx} : HeadNW a → MustConsume a → HeadNW (.seq a b)
  | seqBoth {a b : Rx} : HeadNW a → HeadNW b → HeadNW (.seq a b)
  | alt {a b : Rx} : HeadNW a → HeadNW b → HeadNW (.alt a b)
  | opt {a : Rx} : HeadNW a → HeadNW (.opt a)
  | repGe {p : Char → Bool} (n : Nat) : ClsNW p → HeadNW (.repGe p n)
  | repEx {p : Char → Bool} (n : Nat) : ClsNW p → HeadNW (.repEx p n)

/-- There is a nonwhitespace character at position `i`. -/
def nonwsAt (s : List Char) (i : Nat) : Prop :=
  ∃ c, s.get? i = some c ∧ isSpaceCh c = false

/-- A `HeadNW` pattern either matched without consuming anything
(possible only when nullable) or its first consumed character is
nonwhitespace. -/
theorem mtch_headNW (s : List Char) {r : Rx} (hh : HeadNW r) :
    ∀ i k b, mtch s r i k = some b →
      (k i = some b ∧ nullb r = true) ∨ nonwsAt s i := by
  induction hh with
  | eps => intro i k b h; exact Or.inl ⟨h, rfl⟩
  | bnd => intro i k b h; exact Or.inl ⟨(mtch_bnd_inv h).2, rfl⟩
  | cls hcl =>
      intro i k b h
      obtain ⟨c, hg, hp, _⟩ := mtch_cls_inv h
      exact Or.inr ⟨c, hg, hcl c hp⟩
  | seqStrong hfa hma iha =>
      intro i k b h
      rcases iha i _ b (mtch_seq_inv h) with ⟨h1, h2⟩ | h1
      · rw [not_nullb_of_mustConsume hma] at h2; cases h2
      · exact Or.inr h1
  | seqBoth hfa hfb iha ihb =>
      intro i k b h
      rcases iha i _ b (mtch_seq_inv h) with ⟨h1, h2⟩ | h1
      · rcases ihb i k b h1 with ⟨h3, h4⟩ | h3
        · exact Or.inl ⟨h3, by simp [nullb, h2, h4]⟩
        · exact Or.inr h3
      · exact Or.inr h1
  | alt hfa hfb iha ihb =>
      intro i k b h
      rcases mtch_alt_inv h with h1 | ⟨_, h1⟩
      · rcases iha i k b h1 with ⟨h3, h4⟩ | h3
        · exact Or.inl ⟨h3, by simp [nullb, h4]⟩
        · exact Or.inr h3
      · rcases ihb i k b h1 with ⟨h3, h4⟩ | h3
        · exact Or.inl ⟨h3, by simp [nullb, h4]⟩
        · exact Or.inr h3
  | opt hfa iha =>
      intro i k b h
      rcases mtch_opt_inv h with h1 | ⟨_, h1⟩
      · rcases iha i k b h1 with ⟨h3, _⟩ | h3
        · exact Or.inl ⟨h3, rfl⟩
        · exact Or.inr h3
      · exact Or.inl ⟨h1, rfl⟩
  | @repGe p n hcl =>
      intro i k b h
      obtain ⟨hn, j, h1, h2, h3⟩ := mtch_repGe_inv h
      by_cases hj : j = i
      · subst hj
        have hn0 : n = 0 := by omega
        exact Or.inl ⟨h3, by simp [nullb, hn0]⟩
      · have hrl : 1 ≤ runLen p s i := by omega
        obtain ⟨c, hg, hp⟩ := runLen_pos_head p s i hrl
        exact Or.inr ⟨c, hg, hcl c hp⟩
  | @repEx p n hcl =>
      intro i k b h
      obtain ⟨hn, hk⟩ := mtch_repEx_inv h
      by_cases hn0 : n = 0
      · subst hn0
        exact Or.inl ⟨hk, rfl⟩
      · have hrl : 1 ≤ runLen p s i := by omega
        obtain ⟨c, hg, hp⟩ := runLen_pos_head p s i hrl
        exact Or.inr ⟨c, hg, hcl c hp⟩

/-- For a consuming `HeadNW` pattern, the character at the match
start is nonwhitespace. -/
theorem mtch_head_nonws (s : List Char) {r : Rx} (hh : HeadNW r) (hmc : MustConsume r)
    {i : Nat} {k : Nat → Option Nat} {b : Nat} (h : mtch s r i k = some b) :
    nonwsAt s i := by
  rcases mtch_headNW s hh i k b h with ⟨_, h2⟩ | h1
  · rw [not_nullb_of_mustConsume hmc] at h2; cases h2
  · exact h1

/-! ## Facts about scanning and substitution -/

theorem scanPos_spec (s : List Char) (r : Rx) :
    ∀ f i a b, scanPos s r f i = some (a, b) →
      i ≤ a ∧ a ≤ s.length ∧ matchAt s r a = some b := by
  intro f
  induction f with
  | zero => intro i a b h; cases h
  | succ f ih =>
      intro i a b h
      unfold scanPos at h
      by_cases hi : i ≤ s.length
      · rw [if_pos hi] at h
        cases hm : matchAt s r i with
        | some j =>
            rw [hm] at h
            change some (i, j) = some (a, b) at h
            have h1 : i = a ∧ j = b := by
              injection h with h2
              exact ⟨congrArg Prod.fst h2, congrArg Prod.snd h2⟩
            obtain ⟨rfl, rfl⟩ := h1
            exact ⟨le_refl _, hi, hm⟩
        | none =>
            rw [hm] at h
            change scanPos s r f (i + 1) = some (a, b) at h
            obtain ⟨h1, h2, h3⟩ := ih (i + 1) a b h
            exact ⟨by omega, h2, h3⟩
      · rw [if_neg hi] at h; cases h

theorem findFrom_spec (s : List Char) (r : Rx) (pos a b : Nat)
    (h : findFrom s r pos = some (a, b)) :
    pos ≤ a ∧ a ≤ s.length ∧ matchAt s r a = some b :=
  scanPos_spec s r _ pos a b h

theorem drop_eq_extract_append (s : List Char) (pos a : Nat) (h : pos ≤ a) :
    s.drop pos = extract s pos a ++ s.drop a := by
  unfold extract
  have h1 : s.drop a = List.drop (a - pos) (s.drop pos) := by
    rw [List.drop_drop]
    congr 1
    omega
  rw [h1, List.take_append_drop]

theorem mem_extract (s : List Char) (a b : Nat) (c : Char)
    (hg : s.get? a = some c) (hab : a < b) : c ∈ extract s a b := by
  unfold extract
  have h0 : (s.drop a).get? 0 = some c := by
    rw [List.get?_drop, Nat.add_zero]; exact hg
  cases hd : s.drop a with
  | nil => rw [hd] at h0; cases h0
  | cons d t =>
      rw [hd] at h0
      have : d = c := by injection h0
      subst this
      have h1 : b - a = (b - a - 1) + 1 := by omega
      rw [h1, List.take_cons]
      · exact List.mem_cons_self _ _
      · omega

/-- Whether the first character is whitespace (`false` for empty). -/
def hws : List Char → Bool
  | [] => false
  | c :: _ => isSpaceCh c

theorem hws_append_left (x y : List Char) (h : x ≠ []) : hws (x ++ y) = hws x := by
  cases x with
  | nil => exact absurd rfl h
  | cons c t => rfl

theorem hws_take (x : List Char) (n : Nat) (h : 1 ≤ n) : hws (x.take n) = hws x := by
  cases x with
  | nil => simp
  | cons c t =>
      have h1 : n = (n - 1) + 1 := by omega
      rw [h1, List.take_cons]
      · rfl
      · omega

theorem take_ne_nil_of (x : List Char) (n : Nat) (h : 1 ≤ n) (hx : x ≠ []) :
    x.take n ≠ [] := by
  cases x with
  | nil => exact absurd rfl hx
  | cons c t =>
      have h1 : n = (n - 1) + 1 := by omega
      rw [h1, List.take_cons]
      · simp
      · omega

theorem nb_false_eq_true_add (x : List Char) (hh : hws x = false) (hx : x ≠ []) :
    nb false x = nb true x + 1 := by
  cases x with
  | nil => exact absurd rfl hx
  | cons c t =>
      have hc : isSpaceCh c = false := hh
      simp [nb, hc]
      omega

theorem nb_false_eq_true_of_hws (x : List Char) (hh : hws x = true) :
    nb false x = nb true x := by
  cases x with
  | nil => rfl
  | cons c t =>
      have hc : isSpaceCh c = true := hh
      simp [nb, hc]

/-- Bridge `nb true` comparisons through equal head-whitespace
status. -/
theorem nb_true_mono_of_head (x y : List Char) (hh : hws x = hws y)
    (he : x = [] ↔ y = []) (hle : nb false x ≤ nb false y) :
    nb true x ≤ nb true y := by
  by_cases hx : x = []
  · subst hx; simp [nb]
  · have hy : y ≠ [] := fun h => hx (he.mpr h)
    cases hwx : hws x with
    | true =>
        rw [nb_false_eq_true_of_hws x hwx] at hle
        rw [nb_false_eq_true_of_hws y (hh ▸ hwx)] at hle
        exact hle
    | false =>
        rw [nb_false_eq_true_add x hwx hx] at hle
        rw [nb_false_eq_true_add y (hh ▸ hwx) hy] at hle
        omega

/-- Main invariant of the substitution loop: for a consuming pattern
with nonwhitespace first character and an all-nonwhitespace non-empty
replacement, the output never gains whitespace tokens, keeps the
head-whitespace status, and keeps (non-)emptiness. -/
theorem subLoop_succ_eq (s : List Char) (r : Rx) (repl : List Char) (f pos : Nat) :
    subLoop s r repl (f + 1) pos =
      match findFrom s r pos with
      | none => s.drop pos
      | some (a, b) => extract s pos a ++ repl ++ subLoop s r repl f b := rfl

theorem subLoop_main (s : List Char) (r : Rx) (repl : List Char)
    (hh : HeadNW r) (hmc : MustConsume r)
    (hr_ne : repl ≠ []) (hr_head : hws repl = false)
    (hr_st : ∀ st, stAfter st repl = true)
    (hr_nbt : nb true repl = 0) (hr_nbf : nb false repl = 1) :
    ∀ f pos, nb false (subLoop s r repl f pos) ≤ nb false (s.drop pos)
      ∧ hws (subLoop s r repl f pos) = hws (s.drop pos)
      ∧ (subLoop s r repl f pos = [] ↔ s.drop pos = []) := by
  intro f
  induction f with
  | zero =>
      intro pos
      exact ⟨le_refl _, rfl, Iff.rfl⟩
  | succ f ih =>
      intro pos
      cases hf : findFrom s r pos with
      | none =>
          rw [show subLoop s r repl (f + 1) pos = s.drop pos from by
            rw [subLoop_succ_eq, hf]]
          exact ⟨le_refl _, rfl, Iff.rfl⟩
      | some ab =>
          obtain ⟨a, b⟩ := ab
          rw [show subLoop s r repl (f + 1) pos =
              extract s pos a ++ repl ++ subLoop s r repl f b from by
            rw [subLoop_succ_eq, hf]]
          obtain ⟨hposa, halen, hm⟩ := findFrom_spec s r pos a b hf
          obtain ⟨j1, hj1, hj1e⟩ := mtch_mustConsume s hmc a some b hm
          have hab : a + 1 ≤ b := by
            have : j1 = b := by injection hj1e
            omega
          obtain ⟨j2, _, hj2len, hj2e⟩ := mtch_some_bound s r a some b halen hm
          have hblen : b ≤ s.length := by
            have : j2 = b := by injection hj2e
            omega
          obtain ⟨c0, hc0, hc0n⟩ := mtch_head_nonws s hh hmc hm
          obtain ⟨ihle, ihh, ihe⟩ := ih b
          have hdec1 : s.drop pos = extract s pos a ++ s.drop a :=
            drop_eq_extract_append s pos a hposa
          have hdec2 : s.drop a = extract s a b ++ s.drop b :=
            drop_eq_extract_append s a b (by omega)
          have haltlen : a < s.length := by omega
          have hdrop_pos_ne : s.drop pos ≠ [] := by
            have : (s.drop pos).length = s.length - pos := List.length_drop _ _
            intro hcon
            rw [hcon] at this
            simp at this
            omega
          have hdrop_a_ne : s.drop a ≠ [] := by
            have : (s.drop a).length = s.length - a := List.length_drop _ _
            intro hcon
            rw [hcon] at this
            simp at this
            omega
          have hdrop_a_hws : hws (s.drop a) = false := by
            have h0 : (s.drop a).get? 0 = some c0 := by
              rw [List.get?_drop, Nat.add_zero]; exact hc0
            cases hd : s.drop a with
            | nil => rw [hd] at h0; cases h0
            | cons d t =>
                rw [hd] at h0
                have : d = c0 := by injection h0
                subst this
                exact hc0n
          have hout_ne : extract s pos a ++ repl ++ subLoop s r repl f b ≠ [] := by
            intro hcon
            rcases List.append_eq_nil.mp hcon with ⟨h1, h2⟩
            rcases List.append_eq_nil.mp h1 with ⟨_, h3⟩
            exact hr_ne h3
          refine ⟨?_, ?_, ?_⟩
          · -- token-count inequality
            have hM_pos : nb false (extract s a b) ≥ 1 :=
              nb_pos_of_mem_nonspace _ c0 (mem_extract s a b c0 hc0 hab) hc0n
            rw [hdec1, hdec2]
            rw [List.append_assoc]
            unfold nblocks at *
            rw [nb_append, nb_append, nb_append, nb_append]
            rw [hr_st (stAfter false (extract s pos a))]
            have hOR : nb true (subLoop s r repl f b) ≤ nb true (s.drop b) :=
              nb_true_mono_of_head _ _ ihh ihe ihle
            have hRan : nb true (s.drop b) ≤
                nb (stAfter (stAfter false (extract s pos a)) (extract s a b)) (s.drop b) :=
              nb_true_le_any _ _
            have hrepl_le : nb (stAfter false (extract s pos a)) repl ≤
                nb (stAfter false (extract s pos a)) (extract s a b) := by
              cases hst : stAfter false (extract s pos a) with
              | true => rw [hr_nbt]; omega
              | false => rw [hr_nbf]; exact hM_pos
            omega
          · -- head-whitespace status
            by_cases hpa : pos = a
            · subst hpa
              have hE : extract s pos pos = [] := by
                unfold extract; simp
              rw [hE, List.nil_append, hws_append_left repl _ hr_ne, hr_head]
              rw [hdec1, hE, List.nil_append]
              exact hdrop_a_hws.symm
            · have hpa2 : pos < a := by omega
              have hE_ne : extract s pos a ≠ [] := by
                unfold extract
                refine take_ne_nil_of _ _ (by omega) ?_
                intro hcon
                have : (s.drop pos).length = s.length - pos := List.length_drop _ _
                rw [hcon] at this
                simp at this
                omega
              rw [List.append_assoc, hws_append_left _ _ hE_ne]
              rw [hdec1, hws_append_left _ _ hE_ne]
          · -- emptiness
            constructor
            · intro hcon; exact absurd hcon hout_ne
            · intro hcon; exact absurd hcon hdrop_pos_ne

/-- `pattern.sub` never increases the whitespace-token count. -/
theorem pysub_nblocks_le (s : List Char) (r : Rx) (repl : List Char)
    (hh : HeadNW r) (hmc : MustConsume r)
    (hr_ne : repl ≠ []) (hr_head : hws repl = false)
    (hr_st : ∀ st, stAfter st repl = true)
    (hr_nbt : nb true repl = 0) (hr_nbf : nb false repl = 1) :
    nblocks (pysub r repl s) ≤ nblocks s := by
  have := (subLoop_main s r repl hh hmc hr_ne hr_head hr_st hr_nbt hr_nbf
    (s.length + 1) 0).1
  simpa [pysub, nblocks] using this

/-! ## The four patterns are consuming with nonwhitespace first
character -/

theorem isSpaceCh_cases (c : Char) (h : isSpaceCh c = true) :
    c = ' ' ∨ c = '\t' ∨ c = '\n' ∨ c = '\r' ∨ c = Char.ofNat 11 ∨ c = Char.ofNat 12 := by
  simp only [isSpaceCh, Bool.or_eq_true, decide_eq_true_eq] at h
  tauto

theorem clsNW_of_not_space {p : Char → Bool}
    (h : p ' ' = false ∧ p '\t' = false ∧ p '\n' = false ∧ p '\r' = false ∧
      p (Char.ofNat 11) = false ∧ p (Char.ofNat 12) = false) : ClsNW p := by
  intro c hc
  cases hs : isSpaceCh c with
  | false => rfl
  | true =>
      exfalso
      rcases isSpaceCh_cases c hs with h1 | h1 | h1 | h1 | h1 | h1 <;>
        (subst h1; obtain ⟨a1, a2, a3, a4, a5, a6⟩ := h; simp_all)

theorem clsNW_localCls : ClsNW localCls := clsNW_of_not_space (by decide)

theorem clsNW_domainCls : ClsNW domainCls := clsNW_of_not_space (by decide)

theorem clsNW_tldCls : ClsNW tldCls := clsNW_of_not_space (by decide)

theorem clsNW_digitCls : ClsNW digitCls := clsNW_of_not_space (by decide)

theorem clsNW_char (ch : Char) (h : isSpaceCh ch = false) :
    ClsNW (fun c => c = ch) := by
  intro c hc
  simp only [decide_eq_true_eq] at hc
  subst hc
  exact h

theorem headNW_emailRx : HeadNW emailRx := by
  unfold emailRx
  exact .seqBoth .bnd (.seqStrong (.repGe 1 clsNW_localCls) (.repGe localCls (by omega)))

theorem mustConsume_emailRx : MustConsume emailRx := by
  unfold emailRx
  exact .seqR (.seqL (.repGe localCls (by omega)))

theorem headNW_ccGroup : HeadNW ccGroup := by
  unfold ccGroup
  exact .seqStrong (.repEx 4 clsNW_digitCls) (.repEx digitCls (by omega))

theorem mustConsume_ccGroup : MustConsume ccGroup := by
  unfold ccGroup
  exact .seqL (.repEx digitCls (by omega))

theorem headNW_ccRx : HeadNW ccRx := by
  unfold ccRx
  exact .seqBoth .bnd (.seqStrong headNW_ccGroup mustConsume_ccGroup)

theorem mustConsume_ccRx : MustConsume ccRx := by
  unfold ccRx
  exact .seqR (.seqL mustConsume_ccGroup)

theorem headNW_phoneRx : HeadNW phoneRx := by
  unfold phoneRx
  refine .seqBoth .bnd (.seqBoth (.opt ?hcountry) ?hrest)
  case hcountry =>
    exact .seqBoth (.opt (.cls (clsNW_char '+' (by decide))))
      (.seqStrong (.cls (clsNW_char '1' (by decide))) (.cls _))
  case hrest =>
    exact .seqBoth (.opt (.cls (clsNW_char '(' (by decide))))
      (.seqStrong (.repEx 3 clsNW_digitCls) (.repEx digitCls (by omega)))

theorem mustConsume_phoneRx : MustConsume phoneRx := by
  unfold phoneRx
  exact .seqR (.seqR (.seqR (.seqL (.repEx digitCls (by omega)))))

theorem headNW_ssnRx : HeadNW ssnRx := by
  unfold ssnRx
  exact .seqBoth .bnd (.seqStrong (.repEx 3 clsNW_digitCls) (.repEx digitCls (by omega)))

theorem mustConsume_ssnRx : MustConsume ssnRx := by
  unfold ssnRx
  exact .seqR (.seqL (.repEx digitCls (by omega)))

/-- The PII substitution for one `(name, pattern)` table entry never
increases the whitespace-token count. -/
theorem pii_sub_nblocks_le (d : List Char) (name : List Char) (r : Rx)
    (hh : HeadNW r) (hmc : MustConsume r)
    (hr_ne : placeholder name ≠ []) (hr_head : hws (placeholder name) = false)
    (hr_st : ∀ st, stAfter st (placeholder name) = true)
    (hr_nbt : nb true (placeholder name) = 0)
    (hr_nbf : nb false (placeholder name) = 1) :
    nblocks (pysub r (placeholder name) d) ≤ nblocks d :=
  pysub_nblocks_le d r (placeholder name) hh hmc hr_ne hr_head hr_st hr_nbt hr_nbf

/-- `remove_pii` on one document never increases the whitespace-token
count. -/
theorem removePiiDoc_nblocks_le (doc : List Char) :
    nblocks (removePiiDoc doc) ≤ nblocks doc := by
  unfold removePiiDoc
  refine foldl_nblocks_le _ _ ?_ doc
  intro d pr hpr
  by_cases hm : (findFrom d pr.2 0).isSome
  · rw [if_pos hm]
    unfold piiPatterns at hpr
    simp only [List.mem_cons, List.mem_singleton] at hpr
    rcases hpr with h | h | h | h | h
    · subst h
      exact pii_sub_nblocks_le d _ _ headNW_emailRx mustConsume_emailRx
        (by decide) (by decide) (by intro st; cases st <;> decide)
        (by decide) (by decide)
    · subst h
      exact pii_sub_nblocks_le d _ _ headNW_ccRx mustConsume_ccRx
        (by decide) (by decide) (by intro st; cases st <;> decide)
        (by decide) (by decide)
    · subst h
      exact pii_sub_nblocks_le d _ _ headNW_phoneRx mustConsume_phoneRx
        (by decide) (by decide) (by intro st; cases st <;> decide)
        (by decide) (by decide)
    · subst h
      exact pii_sub_nblocks_le d _ _ headNW_ssnRx mustConsume_ssnRx
        (by decide) (by decide) (by intro st; cases st <;> decide)
        (by decide) (by decide)
    · exact absurd h (List.not_mem_nil pr)
  · rw [if_neg hm]

/-! ## Near-duplicate detection (`DataCleaner.deduplicate_minhash`) -/

/-- `create_minhash` at the level that determines it: the MinHash
signature built by the source is a deterministic function of the
token list `text.lower().split()` (each token's hash is folded into
the signature), so equal token lists give equal signatures; the token
list itself serves as the abstract signature. -/
def createMinhash (text : List Char) : List (List Char) :=
  pysplit (text.map Char.toLower)

/-- The key `f"doc_{i}"` used when inserting into the LSH index. -/
def docKey (i : Nat) : List Char := "doc_".data ++ (Nat.repr i).data

/-- The dedup loop of `deduplicate_minhash`.  `collide su sv`
abstracts the LSH query collision test (do the banded signatures of
`su` and `sv` collide at the configured threshold?); `idx` is the
index of inserted `(key, signature)` pairs in insertion order.  The
query result for document `d` is non-empty iff some inserted
signature collides with `sigf d`; then `d` is rejected and nothing is
inserted; otherwise `d` is accepted, inserted under key `doc_{i}`,
and emitted. -/
def dedupGo (collide : List (List Char) → List (List Char) → Bool)
    (sigf : List Char → List (List Char)) :
    Nat → List (List Char × List (List Char)) → List (List Char) → List (List Char)
  | _, _, [] => []
  | i, idx, d :: rest =>
      if idx.any (fun e => collide e.2 (sigf d)) then
        dedupGo collide sigf (i + 1) idx rest
      else d :: dedupGo collide sigf (i + 1) (idx ++ [(docKey i, sigf d)]) rest

/-- `DataCleaner.deduplicate_minhash`, with the LSH collision test
abstracted as `collide`. -/
def deduplicateMinhash (collide : List (List Char) → List (List Char) → Bool)
    (docs : List (List Char)) : List (List Char) :=
  dedupGo collide createMinhash 0 [] docs

/-! ## Language detection and HTML cleaning -/

/-- Python `str.strip()`. -/
def strip (s : List Char) : List Char :=
  ((s.dropWhile isSpaceCh).reverse.dropWhile isSpaceCh).reverse

/-- `re.sub(r'\s+', ' ', text)`: collapse each whitespace run to a
single space (`inRun` = previous character was whitespace). -/
def collapseWs : Bool → List Char → List Char
  | _, [] => []
  | inRun, c :: t =>
      if isSpaceCh c then
        if inRun then collapseWs true t else ' ' :: collapseWs true t
      else c :: collapseWs false t

/-- `re.sub(r'\s+', ' ', text).strip()` as used by `clean_html`. -/
def normalizeWs (s : List Char) : List Char := strip (collapseWs false s)

/-- `DataCleaner.detect_language`, parametric over the external
collaborators: `getText` abstracts `BeautifulSoup(doc,
'html.parser').get_text()` (script/style text included, no
decomposition) and `langOf` abstracts `langdetect.detect` (`none`
standing for `LangDetectException`).  A document whose stripped
extracted text is shorter than 10 characters is skipped before
detection; otherwise it is kept iff its detected language is in
`targets`. -/
def detectLanguage (getText : List Char → List Char)
    (langOf : List Char → Option (List Char)) (targets : List (List Char)) :
    List (List Char) → List (List Char)
  | [] => []
  | d :: rest =>
      if (strip (getText d)).length < 10 then detectLanguage getText langOf targets rest
      else
        match langOf (getText d) with
        | none => detectLanguage getText langOf targets rest
        | some l =>
            if l ∈ targets then d :: detectLanguage getText langOf targets rest
            else detectLanguage getText langOf targets rest

/-- `DataCleaner.clean_html`, parametric over `ext`, which abstracts
`BeautifulSoup` parsing with `script`/`style` tags decomposed
followed by `get_text()`.  The extracted text is
whitespace-normalized and the document is dropped iff the result is
empty. -/
def cleanHtml (ext : List Char → List Char) : List (List Char) → List (List Char)
  | [] => []
  | d :: rest =>
      if (normalizeWs (ext d)).isEmpty then cleanHtml ext rest
      else normalizeWs (ext d) :: cleanHtml ext rest

/-! ## The constructor (`DataCleaner.__init__`) and token counting -/

/-- The configuration stored by `DataCleaner.__init__`: the given
similarity threshold and target-language list, kept verbatim.  The
constructor performs no range validation of any parameter. -/
structure DataCleanerCfg where
  similarity_threshold : Rat
  target_languages : List (List Char)

/-- `DataCleaner(similarity_threshold, target_languages)`: store the
arguments unchanged (no validation is performed; defaults are `0.7`
and `['en', 'zh-cn']`). -/
def dataCleanerInit (threshold : Rat) (langs : List (List Char)) : DataCleanerCfg :=
  { similarity_threshold := threshold, target_languages := langs }

/-- `DataCleaner.count_tokens`: total whitespace-token count. -/
def countTokens (docs : List (List Char)) : Nat :=
  docs.foldl (fun acc d => acc + (pysplit d).length) 0

/-! ## Structural lemmas for the stage functions -/

theorem removeRepetitiveNgrams_eq_map (maxNgram threshold : Nat) :
    ∀ docs, removeRepetitiveNgrams maxNgram threshold docs =
      docs.map (removeRepNgramsDoc maxNgram threshold) := by
  intro docs
  induction docs with
  | nil => rfl
  | cons d rest ih => simp [removeRepetitiveNgrams, ih]

theorem removeRepetitiveNgrams_length (maxNgram threshold : Nat) (docs : List (List Char)) :
    (removeRepetitiveNgrams maxNgram threshold docs).length = docs.length := by
  rw [removeRepetitiveNgrams_eq_map]
  exact List.length_map _ _

theorem dedupGo_cons (collide : List (List Char) → List (List Char) → Bool)
    (sigf : List Char → List (List Char)) (i : Nat)
    (idx : List (List Char × List (List Char))) (d : List Char) (rest : List (List Char)) :
    dedupGo collide sigf i idx (d :: rest) =
      if idx.any (fun e => collide e.2 (sigf d)) then dedupGo collide sigf (i + 1) idx rest
      else d :: dedupGo collide sigf (i + 1) (idx ++ [(docKey i, sigf d)]) rest := rfl

theorem dedupGo_sublist (collide : List (List Char) → List (List Char) → Bool)
    (sigf : List Char → List (List Char)) :
    ∀ (docs : List (List Char)) (i : Nat) (idx : List (List Char × List (List Char))),
      List.Sublist (dedupGo collide sigf i idx docs) docs := by
  intro docs
  induction docs with
  | nil => intro i idx; exact List.Sublist.refl _
  | cons d rest ih =>
      intro i idx
      rw [dedupGo_cons]
      by_cases h : idx.any (fun e => collide e.2 (sigf d)) = true
      · rw [if_pos h]; exact (ih _ _).cons d
      · rw [if_neg h]; exact (ih _ _).cons₂ d

theorem detectLanguage_sublist (getText : List Char → List Char)
    (langOf : List Char → Option (List Char)) (targets : List (List Char)) :
    ∀ docs, List.Sublist (detectLanguage getText langOf targets docs) docs := by
  intro docs
  induction docs with
  | nil => exact List.Sublist.refl _
  | cons d rest ih =>
      unfold detectLanguage
      by_cases h1 : (strip (getText d)).length < 10
      · rw [if_pos h1]; exact ih.cons d
      · rw [if_neg h1]
        cases hl : langOf (getText d) with
        | none => exact ih.cons d
        | some lang =>
            show List.Sublist
              (if lang ∈ targets then d :: detectLanguage getText langOf targets rest
               else detectLanguage getText langOf targets rest) (d :: rest)
            by_cases h2 : lang ∈ targets
            · rw [if_pos h2]; exact ih.cons₂ d
            · rw [if_neg h2]; exact ih.cons d

theorem cleanHtml_sublist_map (ext : List Char → List Char) :
    ∀ docs, List.Sublist (cleanHtml ext docs) (docs.map (fun d => normalizeWs (ext d))) := by
  intro docs
  induction docs with
  | nil => exact List.Sublist.refl _
  | cons d rest ih =>
      unfold cleanHtml
      by_cases h : (normalizeWs (ext d)).isEmpty = true
      · rw [if_pos h]
        exact ih.cons _
      · rw [if_neg h]
        exact ih.cons₂ _

/-! ## Claim theorems -/

/-- C1 counterexample: the claim says a configuration with τ outside
`(0,1]`, n-gram window < 2, or repetition threshold < 2 raises a
configuration error before any stage processes a document, and that
no documents are processed.  On the code there is no validation at
all: constructing the cleaner with τ = 2 succeeds and stores the
value, and the n-gram stage with window 1 and threshold 1 (both below
2) runs normally and emits the document. -/
theorem dataCleaner_no_validation_counterexample :
    (¬ (0 < (dataCleanerInit 2 ["en".data]).similarity_threshold ∧
        (dataCleanerInit 2 ["en".data]).similarity_threshold ≤ 1)) ∧
    (dataCleanerInit 2 ["en".data]).similarity_threshold = 2 ∧
    removeRepetitiveNgrams 1 1 ["hello world".data] = ["hello world".data] ∧
    removeRepetitiveNgrams 1 1 ["hello world".data] ≠ [] := by
  refine ⟨?_, rfl, by decide, by decide⟩
  intro h
  have := h.2
  norm_num [dataCleanerInit] at this

/-- C1 (amended): `DataCleaner.__init__` performs no validation of
any configuration parameter: any similarity threshold and language
list are stored verbatim, and `remove_repetitive_ngrams` runs for any
window and threshold values (valid or not), emitting exactly one
output document per input document. -/
theorem dataCleaner_accepts_any_config (threshold : Rat) (langs : List (List Char))
    (maxNgram th : Nat) (docs : List (List Char)) :
    (dataCleanerInit threshold langs).similarity_threshold = threshold ∧
    (dataCleanerInit threshold langs).target_languages = langs ∧
    (removeRepetitiveNgrams maxNgram th docs).length = docs.length :=
  ⟨rfl, rfl, removeRepetitiveNgrams_length maxNgram th docs⟩

/-- C2: the near-duplicate detector is a greedy single pass in input
order — its output is an in-order subsequence of the input — and for
any collision test under which equal signatures collide (as the LSH
banding guarantees for identical MinHash signatures), two identical
documents submitted consecutively yield exactly the first one. -/
theorem deduplicateMinhash_greedy_first_occurrence
    (collide : List (List Char) → List (List Char) → Bool)
    (hrefl : ∀ sg, collide sg sg = true) (docs : List (List Char)) (d : List Char) :
    List.Sublist (deduplicateMinhash collide docs) docs ∧
    (∀ (i : Nat) (idx : List (List Char × List (List Char))) (d0 : List Char)
        (rest : List (List Char)),
      (idx.any (fun e => collide e.2 (createMinhash d0)) = true →
        dedupGo collide createMinhash i idx (d0 :: rest) =
          dedupGo collide createMinhash (i + 1) idx rest) ∧
      (idx.any (fun e => collide e.2 (createMinhash d0)) = false →
        dedupGo collide createMinhash i idx (d0 :: rest) =
          d0 :: dedupGo collide createMinhash (i + 1)
            (idx ++ [(docKey i, createMinhash d0)]) rest)) ∧
    deduplicateMinhash collide [d, d] = [d] := by
  refine ⟨dedupGo_sublist collide createMinhash docs 0 [], ?_, ?_⟩
  · intro i idx d0 rest
    constructor
    · intro hq
      rw [dedupGo_cons, if_pos hq]
    · intro hq
      rw [dedupGo_cons, if_neg (by rw [hq]; exact Bool.false_ne_true)]
  · unfold deduplicateMinhash
    rw [dedupGo_cons]
    rw [if_neg (by simp)]
    rw [dedupGo_cons]
    rw [if_pos (by simp [hrefl])]
    rfl

/-- C2 witness: instantiating the collision test with signature
equality on two identical documents. -/
theorem deduplicateMinhash_greedy_first_occurrence_witness :
    List.Sublist (deduplicateMinhash (fun a b => a == b) ["b c".data, "b c".data])
      ["b c".data, "b c".data] ∧
    deduplicateMinhash (fun a b => a == b) ["b c".data, "b c".data] = ["b c".data] :=
  ⟨(deduplicateMinhash_greedy_first_occurrence (fun a b => a == b)
      (fun sg => by simp) ["b c".data, "b c".data] "b c".data).1,
   (deduplicateMinhash_greedy_first_occurrence (fun a b => a == b)
      (fun sg => by simp) ["b c".data, "b c".data] "b c".data).2.2⟩

/-- C3 counterexample: the claim says the redactor produces exactly
`"Contact me at [EMAIL] or [PHONE]"`; the code's placeholders are
`[EMAIL_REMOVED]`/`[PHONE_REMOVED]`, so the actual output differs. -/
theorem removePii_placeholder_counterexample :
    removePii ["Contact me at john@example.com or 555-123-4567".data] ≠
      ["Contact me at [EMAIL] or [PHONE]".data] := by decide

/-- C3 (amended): each match of a category's pattern is replaced by
the placeholder `[<CATEGORY>_REMOVED]`; the concrete input produces
`"Contact me at [EMAIL_REMOVED] or [PHONE_REMOVED]"`. -/
theorem removePii_concrete_scenario :
    removePii ["Contact me at john@example.com or 555-123-4567".data] =
      ["Contact me at [EMAIL_REMOVED] or [PHONE_REMOVED]".data] := by decide

/-- C4 counterexample: the claim says occurrences of an over-threshold
n-gram separated by unrelated text are left unchanged.  In
`"a b x a b y a b"` the 2-gram `a b` occurs three times with `x` and
`y` between the occurrences, yet the compressor changes the document
(it deletes the non-adjacent later occurrences). -/
theorem removeRepetitiveNgrams_nonadjacent_counterexample :
    removeRepetitiveNgrams 3 3 ["a b x a b y a b".data] ≠ ["a b x a b y a b".data] := by decide

/-- C4 (amended): the compressor removes every occurrence after the
first of an over-threshold n-gram's space-joined string, regardless
of adjacency — the whole-document substitution keeps only the first
occurrence: `"a b x a b y a b"` becomes `"a b x  y "`. -/
theorem removeRepetitiveNgrams_removes_nonadjacent :
    removeRepetitiveNgrams 3 3 ["a b x a b y a b".data] = ["a b x  y ".data] := by decide

/-- C5 counterexample: the claim says n-gram counts for pass `n` are
computed over the text produced by pass `n-1`.  On this document the
code's output differs from the variant that retokenizes the current
text at each pass (`removeRepNgramsDocSpecWords`, written from the
spec's words): pass 2 creates three fresh `a b c` 3-grams, which the
spec variant collapses in pass 3 but the code does not. -/
theorem removeRepetitiveNgrams_stale_tokens_counterexample :
    removeRepetitiveNgrams 3 3 ["m m q m m r m m s a bm m c t a bm m c u a bm m c".data] ≠
      [removeRepNgramsDocSpecWords 3 3
        "m m q m m r m m s a bm m c t a bm m c u a bm m c".data] := by decide

/-- C5 (amended): n-gram counts for every pass are computed over the
whitespace tokens of the **original** document (`words = doc.split()`
runs once, before the pass loop); only the string rewrites see the
current text.  Concretely: the output below still contains the token
3-gram `a b c` three times — its fresh count reaches the threshold —
because its count in the original tokens is 0, pass 3 does not
collapse it. -/
theorem removeRepetitiveNgrams_uses_original_tokens :
    removeRepetitiveNgrams 3 3 ["m m q m m r m m s a bm m c t a bm m c u a bm m c".data] =
      ["m m q  r  s a b c t a b c u a b c".data] ∧
    (["a".data, "b".data, "c".data], 3) ∈
      countNgrams (ngramsOf 3 (pysplit "m m q  r  s a b c t a b c u a b c".data)) ∧
    (["a".data, "b".data, "c".data], 3) ∉
      countNgrams (ngramsOf 3
        (pysplit "m m q m m r m m s a bm m c t a bm m c u a bm m c".data)) := by
  refine ⟨by decide, by decide, by decide⟩

/-- C6 counterexample: the claim says the credit-card pattern matches
every 12–19-digit sequence, and in particular that ungrouped 12- and
19-digit runs get redacted.  Documents containing an ungrouped
12-digit and an ungrouped 19-digit run pass through the redactor
completely unchanged — no pattern matches them. -/
theorem creditCard_12_19_digits_counterexample :
    removePii ["card 123456789012 ok".data] = ["card 123456789012 ok".data] ∧
    removePii ["card 1234567890123456789 ok".data] =
      ["card 1234567890123456789 ok".data] := by
  refine ⟨by decide, by decide⟩

/-- C6 (amended): the credit-card pattern
`\b(?:\d{4}[-\s]?){3}\d{4}\b` matches exactly 16 digits in four
groups of four, each of the first three groups optionally followed by
one hyphen or whitespace character; grouped and ungrouped 16-digit
runs are redacted, while ungrouped 12- and 19-digit runs are not. -/
theorem creditCard_16_digits_only :
    removePii ["card 4532-1234-5678-9012 ok".data] = ["card [CREDIT_CARD_REMOVED] ok".data] ∧
    removePii ["card 1234567890123456 ok".data] = ["card [CREDIT_CARD_REMOVED] ok".data] ∧
    removePii ["card 123456789012 ok".data] = ["card 123456789012 ok".data] ∧
    removePii ["card 1234567890123456789 ok".data] =
      ["card 1234567890123456789 ok".data] := by
  refine ⟨by decide, by decide, by decide, by decide⟩

/-- C8: for every document (and any window/threshold configuration),
neither PII redaction nor repetitive-n-gram removal increases the
whitespace-split token count of the document. -/
theorem token_count_never_increases (doc : List Char) (maxNgram threshold : Nat) :
    (pysplit (removePiiDoc doc)).length ≤ (pysplit doc).length ∧
    (pysplit (removeRepNgramsDoc maxNgram threshold doc)).length ≤ (pysplit doc).length := by
  rw [pysplit_length, pysplit_length, pysplit_length]
  exact ⟨removePiiDoc_nblocks_le doc, removeRepNgramsDoc_nblocks_le maxNgram threshold doc⟩

/-- C9: every filtering stage preserves relative order — the language
filter emits an in-order subsequence of its input, the HTML cleaner
emits an in-order subsequence of the positionwise rewrite of its
input, and the repetition compressor is exactly a positionwise
rewrite. -/
theorem stages_preserve_order (getText : List Char → List Char)
    (langOf : List Char → Option (List Char)) (targets : List (List Char))
    (ext : List Char → List Char) (maxNgram threshold : Nat) (docs : List (List Char)) :
    List.Sublist (detectLanguage getText langOf targets docs) docs ∧
    List.Sublist (cleanHtml ext docs) (docs.map (fun d => normalizeWs (ext d))) ∧
    removeRepetitiveNgrams maxNgram threshold docs =
      docs.map (removeRepNgramsDoc maxNgram threshold) :=
  ⟨detectLanguage_sublist getText langOf targets docs,
   cleanHtml_sublist_map ext docs,
   removeRepetitiveNgrams_eq_map maxNgram threshold docs⟩

/-- C10: the HTML cleaner drops every document whose extracted
(script/style-stripped) text is empty after whitespace
normalization; consequently a document long enough, in-language under
the full extraction (where script/style text still counts), and empty
under the script-stripped extraction passes the language stage yet is
silently removed by the HTML stage. -/
theorem cleanHtml_drops_empty_after_language (getTextAll extNS : List Char → List Char)
    (langOf : List Char → Option (List Char)) (targets : List (List Char))
    (d : List Char) (l : List Char)
    (h1 : ¬ (strip (getTextAll d)).length < 10)
    (h2 : langOf (getTextAll d) = some l) (h3 : l ∈ targets)
    (h4 : normalizeWs (extNS d) = []) :
    detectLanguage getTextAll langOf targets [d] = [d] ∧
    cleanHtml extNS (detectLanguage getTextAll langOf targets [d]) = [] ∧
    (∀ docs, cleanHtml extNS (d :: docs) = cleanHtml extNS docs) := by
  have hkeep : detectLanguage getTextAll langOf targets [d] = [d] := by
    unfold detectLanguage
    rw [if_neg h1, h2]
    show (if l ∈ targets then d :: detectLanguage getTextAll langOf targets []
      else detectLanguage getTextAll langOf targets []) = [d]
    rw [if_pos h3]
    rfl
  have hdrop : ∀ docs, cleanHtml extNS (d :: docs) = cleanHtml extNS docs := by
    intro docs
    show (if (normalizeWs (extNS d)).isEmpty = true then cleanHtml extNS docs
      else normalizeWs (extNS d) :: cleanHtml extNS docs) = cleanHtml extNS docs
    rw [if_pos (by rw [h4]; rfl)]
  refine ⟨hkeep, ?_, hdrop⟩
  rw [hkeep, hdrop]
  rfl

/-- C10 witness: a document whose only content lies inside script
tags, with concrete collaborator instantiations. -/
theorem cleanHtml_drops_empty_after_language_witness :
    detectLanguage (fun _ => "somelongscripttext".data) (fun _ => some "en".data)
      ["en".data, "zh-cn".data] ["<script>var x = 1;</script>".data] =
      ["<script>var x = 1;</script>".data] ∧
    cleanHtml (fun _ => [])
      (detectLanguage (fun _ => "somelongscripttext".data) (fun _ => some "en".data)
        ["en".data, "zh-cn".data] ["<script>var x = 1;</script>".data]) = [] ∧
    (∀ docs, cleanHtml (fun _ => []) ("<script>var x = 1;</script>".data :: docs) =
      cleanHtml (fun _ => []) docs) :=
  cleanHtml_drops_empty_after_language (fun _ => "somelongscripttext".data) (fun _ => [])
    (fun _ => some "en".data) ["en".data, "zh-cn".data]
    "<script>var x = 1;</script>".data "en".data
    (by decide) rfl (by decide) (by decide)

/-! ## A semantics for the matcher: `Sem s r i j` says `r` matches the
characters of `s` from `i` (inclusive) to `j` (exclusive), in the
boundary context of `s`.  Used to transfer matches between strings
that agree locally. -/

inductive Sem (s : List Char) : Rx → Nat → Nat → Prop
  | eps {i : Nat} : Sem s .eps i i
  | cls {p : Char → Bool} {i : Nat} {c : Char} :
      s.get? i = some c → p c = true → Sem s (.cls p) i (i + 1)
  | seq {a b : Rx} {i m j : Nat} :
      Sem s a i m → Sem s b m j → Sem s (.seq a b) i j
  | altL {a b : Rx} {i j : Nat} : Sem s a i j → Sem s (.alt a b) i j
  | altR {a b : Rx} {i j : Nat} : Sem s b i j → Sem s (.alt a b) i j
  | optS {a : Rx} {i j : Nat} : Sem s a i j → Sem s (.opt a) i j
  | optN {a : Rx} {i : Nat} : Sem s (.opt a) i i
  | bnd {i : Nat} : boundary s i = true → Sem s .bnd i i
  | repGe {p : Char → Bool} {n i j : Nat} :
      i + n ≤ j →
      (∀ q, i ≤ q → q < j → ∃ c, s.get? q = some c ∧ p c = true) →
      Sem s (.repGe p n) i j
  | repEx {p : Char → Bool} {n i : Nat} :
      (∀ q, i ≤ q → q < i + n → ∃ c, s.get? q = some c ∧ p c = true) →
      Sem s (.repEx p n) i (i + n)

theorem Sem_le {s : List Char} {r : Rx} {i j : Nat} (h : Sem s r i j) : i ≤ j := by
  induction h with
  | eps => exact le_refl _
  | cls _ _ => omega
  | seq _ _ ih1 ih2 => omega
  | altL _ ih => exact ih
  | altR _ ih => exact ih
  | optS _ ih => exact ih
  | optN => exact le_refl _
  | bnd _ => exact le_refl _
  | repGe h1 _ => omega
  | repEx _ => omega

theorem runLen_all (p : Char → Bool) (s : List Char) (i : Nat) :
    ∀ q, i ≤ q → q < i + runLen p s i → ∃ c, s.get? q = some c ∧ p c = true := by
  intro q h1 h2
  unfold runLen at h2
  have hq : q - i < runAux p (s.drop i) := by omega
  have hrun : ∀ (l : List Char) (d : Nat), d < runAux p l → ∃ c, l.get? d = some c ∧ p c = true := by
    intro l
    induction l with
    | nil => intro d hd; simp [runAux] at hd
    | cons c t ih =>
        intro d hd
        by_cases hc : p c
        · cases d with
          | zero => exact ⟨c, rfl, hc⟩
          | succ d' =>
              simp only [runAux, hc, if_true] at hd
              exact ih d' (by omega)
        · simp [runAux, hc] at hd
  obtain ⟨c, hg, hp⟩ := hrun (s.drop i) (q - i) hq
  refine ⟨c, ?_, hp⟩
  rw [List.get?_drop] at hg
  rw [show i + (q - i) = q from by omega] at hg
  exact hg

theorem runLen_ge_of_all (p : Char → Bool) (s : List Char) (i d : Nat)
    (h : ∀ q, i ≤ q → q < i + d → ∃ c, s.get? q = some c ∧ p c = true) :
    d ≤ runLen p s i := by
  unfold runLen
  have hgen : ∀ (d' : Nat) (l : List Char) (base : Nat),
      (∀ q, base ≤ q → q < base + d' → ∃ c, s.get? q = some c ∧ p c = true) →
      l = s.drop base → d' ≤ runAux p l := by
    intro d'
    induction d' with
    | zero => intro l base _ _; omega
    | succ d'' ih =>
        intro l base hall hl
        obtain ⟨c, hg, hp⟩ := hall base (le_refl _) (by omega)
        have hd : s.drop base = c :: s.drop (base + 1) := by
          have h0 : (s.drop base).get? 0 = some c := by
            rw [List.get?_drop, Nat.add_zero]; exact hg
          cases he : s.drop base with
          | nil => rw [he] at h0; cases h0
          | cons x t =>
              rw [he] at h0
              have hx : x = c := by injection h0
              subst hx
              congr 1
              have : t = List.drop 1 (s.drop base) := by rw [he]; rfl
              rw [this, List.drop_drop]
        subst hl
        rw [hd]
        have htail : d'' ≤ runAux p (s.drop (base + 1)) := by
          refine ih _ (base + 1) ?_ rfl
          intro q hq1 hq2
          exact hall q (by omega) (by omega)
        simp only [runAux, hp, if_true]
        omega
  exact hgen d (s.drop i) i h rfl

/-- Soundness: a successful run of the matcher is a semantic match of
the consumed interval. -/
theorem mtch_sound (s : List Char) (r : Rx) :
    ∀ i k b, mtch s r i k = some b → ∃ j, Sem s r i j ∧ k j = some b := by
  induction r with
  | eps => intro i k b h; exact ⟨i, .eps, h⟩
  | cls p =>
      intro i k b h
      obtain ⟨c, hg, hp, hk⟩ := mtch_cls_inv h
      exact ⟨i + 1, .cls hg hp, hk⟩
  | seq a b' iha ihb =>
      intro i k b h
      obtain ⟨m, hm, h1⟩ := iha i _ b (mtch_seq_inv h)
      obtain ⟨j, hj, h2⟩ := ihb m k b h1
      exact ⟨j, .seq hm hj, h2⟩
  | alt a b' iha ihb =>
      intro i k b h
      rcases mtch_alt_inv h with h1 | ⟨_, h1⟩
      · obtain ⟨j, hj, h2⟩ := iha i k b h1
        exact ⟨j, .altL hj, h2⟩
      · obtain ⟨j, hj, h2⟩ := ihb i k b h1
        exact ⟨j, .altR hj, h2⟩
  | opt a iha =>
      intro i k b h
      rcases mtch_opt_inv h with h1 | ⟨_, h1⟩
      · obtain ⟨j, hj, h2⟩ := iha i k b h1
        exact ⟨j, .optS hj, h2⟩
      · exact ⟨i, .optN, h1⟩
  | bnd =>
      intro i k b h
      obtain ⟨hb, hk⟩ := mtch_bnd_inv h
      exact ⟨i, .bnd hb, hk⟩
  | repGe p n =>
      intro i k b h
      obtain ⟨hn, j, h1, h2, h3⟩ := mtch_repGe_inv h
      refine ⟨j, .repGe h1 ?_, h3⟩
      intro q hq1 hq2
      exact runLen_all p s i q hq1 (by omega)
  | repEx p n =>
      intro i k b h
      obtain ⟨hn, hk⟩ := mtch_repEx_inv h
      refine ⟨i + n, .repEx ?_, hk⟩
      intro q hq1 hq2
      exact runLen_all p s i q hq1 (by omega)

theorem tryDown_complete (k : Nat → Option Nat) (base : Nat) :
    ∀ cnt l b0, l ≤ cnt → k (base + l) = some b0 →
      ∃ b, tryDown k base cnt = some b := by
  intro cnt
  induction cnt with
  | zero =>
      intro l b0 hl hk
      have : l = 0 := by omega
      subst this
      exact ⟨b0, hk⟩
  | succ cnt ih =>
      intro l b0 hl hk
      unfold tryDown
      cases hk2 : k (base + (cnt + 1)) with
      | some r => exact ⟨r, rfl⟩
      | none =>
          have hl2 : l ≤ cnt := by
            rcases Nat.lt_or_ge l (cnt + 1) with h | h
            · omega
            · exfalso
              have : l = cnt + 1 := by omega
              subst this
              rw [hk] at hk2
              cases hk2
          obtain ⟨b, hb⟩ := ih l b0 hl2 hk
          exact ⟨b, hb⟩

/-- Completeness: a semantic match whose continuation succeeds makes
the matcher succeed (possibly through a different interval). -/
theorem mtch_complete (s : List Char) (r : Rx) :
    ∀ i j, Sem s r i j → ∀ k b0, k j = some b0 → ∃ b, mtch s r i k = some b := by
  intro i j hsem
  induction hsem with
  | eps => intro k b0 hk; exact ⟨b0, hk⟩
  | @cls p i c hg hp =>
      intro k b0 hk
      refine ⟨b0, ?_⟩
      unfold mtch
      rw [hg]
      change (if p c = true then k (i + 1) else none) = some b0
      rw [if_pos hp]
      exact hk
  | seq hma hmb iha ihb =>
      intro k b0 hk
      obtain ⟨b1, hb1⟩ := ihb k b0 hk
      obtain ⟨b2, hb2⟩ := iha (fun j2 => mtch s _ j2 k) b1 hb1
      exact ⟨b2, hb2⟩
  | altL hma iha =>
      intro k b0 hk
      obtain ⟨b1, hb1⟩ := iha k b0 hk
      refine ⟨b1, ?_⟩
      unfold mtch
      rw [hb1]
  | altR hmb ihb =>
      intro k b0 hk
      obtain ⟨b1, hb1⟩ := ihb k b0 hk
      unfold mtch
      cases hm : mtch s _ _ k with
      | some r0 => exact ⟨r0, rfl⟩
      | none => exact ⟨b1, hb1⟩
  | optS hma iha =>
      intro k b0 hk
      obtain ⟨b1, hb1⟩ := iha k b0 hk
      refine ⟨b1, ?_⟩
      unfold mtch
      rw [hb1]
  | @optN a i =>
      intro k b0 hk
      unfold mtch
      cases hm : mtch s a i k with
      | some r0 => exact ⟨r0, rfl⟩
      | none => exact ⟨b0, hk⟩
  | bnd hb =>
      intro k b0 hk
      refine ⟨b0, ?_⟩
      unfold mtch
      rw [if_pos hb]
      exact hk
  | @repGe p n i j h1 h2 =>
      intro k b0 hk
      have hrl : j - i ≤ runLen p s i := by
        refine runLen_ge_of_all p s i (j - i) ?_
        intro q hq1 hq2
        exact h2 q hq1 (by omega)
      unfold mtch
      rw [if_neg (by omega)]
      refine tryDown_complete k (i + n) (runLen p s i - n) (j - i - n) b0 (by omega) ?_
      rw [show i + n + (j - i - n) = j from by omega]
      exact hk
  | @repEx p n i h2 =>
      intro k b0 hk
      have hrl : n ≤ runLen p s i := by
        refine runLen_ge_of_all p s i n ?_
        intro q hq1 hq2
        exact h2 q hq1 hq2
      refine ⟨b0, ?_⟩
      unfold mtch
      rw [if_pos hrl]
      exact hk

theorem wordAt_eq_of_get (t u : List Char) (q q' : Nat) (h : t.get? q = u.get? q') :
    wordAt t q = wordAt u q' := by
  unfold wordAt
  rw [h]

/-- Transfer a semantic match between two strings that agree on a
window `[lo, hi)` (with translated positions) and whose boundary
tests agree at the window's two edges. -/
theorem Sem_transfer (t u : List Char) (lo hi lo' : Nat)
    (hchars : ∀ q, lo ≤ q → q < hi → t.get? q = u.get? (q - lo + lo'))
    (hbl : boundary t lo = boundary u lo')
    (hbh : boundary t hi = boundary u (hi - lo + lo')) :
    ∀ r i j, Sem t r i j → lo ≤ i → j ≤ hi → Sem u r (i - lo + lo') (j - lo + lo') := by
  have hbmid : ∀ m, lo ≤ m → m ≤ hi → boundary t m = boundary u (m - lo + lo') := by
    intro m h1 h2
    by_cases hm1 : m = lo
    · subst hm1
      rw [show m - m + lo' = lo' from by omega]
      exact hbl
    · by_cases hm2 : m = hi
      · subst hm2; exact hbh
      · have hlt : lo < m ∧ m < hi := by omega
        unfold boundary
        have hw : wordAt t m = wordAt u (m - lo + lo') :=
          wordAt_eq_of_get t u m _ (hchars m (by omega) (by omega))
        have hpw : prevWordAt t m = prevWordAt u (m - lo + lo') := by
          have hpv : ∀ (v : List Char) (d : Nat), 0 < d → prevWordAt v d = wordAt v (d - 1) := by
            intro v d hd
            cases d with
            | zero => omega
            | succ d' => rfl
          rw [hpv t m (by omega), hpv u (m - lo + lo') (by omega)]
          have he : m - lo + lo' - 1 = m - 1 - lo + lo' := by omega
          rw [he]
          exact wordAt_eq_of_get t u (m - 1) _ (hchars (m - 1) (by omega) (by omega))
        rw [hw, hpw]
  intro r i j hsem
  induction hsem with
  | @eps i =>
      intro h1 h2
      exact .eps
  | @cls p i c hg hp =>
      intro h1 h2
      have hgu : u.get? (i - lo + lo') = some c := by
        rw [← hchars i h1 (by omega)]; exact hg
      have heq : i + 1 - lo + lo' = (i - lo + lo') + 1 := by omega
      rw [heq]
      exact .cls hgu hp
  | @seq a b i m j hma hmb iha ihb =>
      intro h1 h2
      have hm1 : i ≤ m := Sem_le hma
      have hm2 : m ≤ j := Sem_le hmb
      exact .seq (iha h1 (by omega)) (ihb (by omega) h2)
  | altL hma iha => intro h1 h2; exact .altL (iha h1 h2)
  | altR hmb ihb => intro h1 h2; exact .altR (ihb h1 h2)
  | optS hma iha => intro h1 h2; exact .optS (iha h1 h2)
  | optN => intro h1 h2; exact .optN
  | @bnd i hb =>
      intro h1 h2
      refine .bnd ?_
      rw [← hbmid i h1 h2]
      exact hb
  | @repGe p n i j hij hall =>
      intro h1 h2
      refine .repGe (by omega) ?_
      intro q' hq1 hq2
      obtain ⟨c, hg, hp⟩ := hall (q' - lo' + lo) (by omega) (by omega)
      refine ⟨c, ?_, hp⟩
      have hch := hchars (q' - lo' + lo) (by omega) (by omega)
      rw [show q' - lo' + lo - lo + lo' = q' from by omega] at hch
      rw [← hch]
      exact hg
  | @repEx p n i hall =>
      intro h1 h2
      have heq : i + n - lo + lo' = (i - lo + lo') + n := by omega
      rw [heq]
      refine .repEx ?_
      intro q' hq1 hq2
      obtain ⟨c, hg, hp⟩ := hall (q' - lo' + lo) (by omega) (by omega)
      refine ⟨c, ?_, hp⟩
      have hch := hchars (q' - lo' + lo) (by omega) (by omega)
      rw [show q' - lo' + lo - lo + lo' = q' from by omega] at hch
      rw [← hch]
      exact hg

theorem Sem_seq_inv {s : List Char} {a b : Rx} {i j : Nat}
    (h : Sem s (.seq a b) i j) : ∃ m, Sem s a i m ∧ Sem s b m j := by
  cases h with
  | seq h1 h2 => exact ⟨_, h1, h2⟩

theorem Sem_bnd_inv {s : List Char} {i j : Nat}
    (h : Sem s .bnd i j) : boundary s i = true ∧ j = i := by
  cases h with
  | bnd hb => exact ⟨hb, rfl⟩

/-- All four PII patterns require a word boundary at both ends of the
match. -/
theorem Sem_email_bnds {s : List Char} {i j : Nat} (h : Sem s emailRx i j) :
    boundary s i = true ∧ boundary s j = true := by
  unfold emailRx at h
  obtain ⟨m1, hb1, h1⟩ := Sem_seq_inv h
  obtain ⟨hbi, rfl⟩ := Sem_bnd_inv hb1
  obtain ⟨m2, _, h2⟩ := Sem_seq_inv h1
  obtain ⟨m3, _, h3⟩ := Sem_seq_inv h2
  obtain ⟨m4, _, h4⟩ := Sem_seq_inv h3
  obtain ⟨m5, _, h5⟩ := Sem_seq_inv h4
  obtain ⟨m6, _, h6⟩ := Sem_seq_inv h5
  obtain ⟨hbj, rfl⟩ := Sem_bnd_inv h6
  exact ⟨hbi, hbj⟩

theorem Sem_cc_bnds {s : List Char} {i j : Nat} (h : Sem s ccRx i j) :
    boundary s i = true ∧ boundary s j = true := by
  unfold ccRx at h
  obtain ⟨m1, hb1, h1⟩ := Sem_seq_inv h
  obtain ⟨hbi, rfl⟩ := Sem_bnd_inv hb1
  obtain ⟨m2, _, h2⟩ := Sem_seq_inv h1
  obtain ⟨m3, _, h3⟩ := Sem_seq_inv h2
  obtain ⟨m4, _, h4⟩ := Sem_seq_inv h3
  obtain ⟨m5, _, h5⟩ := Sem_seq_inv h4
  obtain ⟨hbj, rfl⟩ := Sem_bnd_inv h5
  exact ⟨hbi, hbj⟩

theorem Sem_phone_bnds {s : List Char} {i j : Nat} (h : Sem s phoneRx i j) :
    boundary s i = true ∧ boundary s j = true := by
  unfold phoneRx at h
  obtain ⟨m1, hb1, h1⟩ := Sem_seq_inv h
  obtain ⟨hbi, rfl⟩ := Sem_bnd_inv hb1
  obtain ⟨m2, _, h2⟩ := Sem_seq_inv h1
  obtain ⟨m3, _, h3⟩ := Sem_seq_inv h2
  obtain ⟨m4, _, h4⟩ := Sem_seq_inv h3
  obtain ⟨m5, _, h5⟩ := Sem_seq_inv h4
  obtain ⟨m6, _, h6⟩ := Sem_seq_inv h5
  obtain ⟨m7, _, h7⟩ := Sem_seq_inv h6
  obtain ⟨m8, _, h8⟩ := Sem_seq_inv h7
  obtain ⟨m9, _, h9⟩ := Sem_seq_inv h8
  obtain ⟨hbj, rfl⟩ := Sem_bnd_inv h9
  exact ⟨hbi, hbj⟩

theorem Sem_ssn_bnds {s : List Char} {i j : Nat} (h : Sem s ssnRx i j) :
    boundary s i = true ∧ boundary s j = true := by
  unfold ssnRx at h
  obtain ⟨m1, hb1, h1⟩ := Sem_seq_inv h
  obtain ⟨hbi, rfl⟩ := Sem_bnd_inv hb1
  obtain ⟨m2, _, h2⟩ := Sem_seq_inv h1
  obtain ⟨m3, _, h3⟩ := Sem_seq_inv h2
  obtain ⟨m4, _, h4⟩ := Sem_seq_inv h3
  obtain ⟨m5, _, h5⟩ := Sem_seq_inv h4
  obtain ⟨m6, _, h6⟩ := Sem_seq_inv h5
  obtain ⟨hbj, rfl⟩ := Sem_bnd_inv h6
  exact ⟨hbi, hbj⟩

/-- All character classes of a pattern imply `P`. -/
def allCls (P : Char → Bool) : Rx → Prop
  | .eps => True
  | .bnd => True
  | .cls p => ∀ c, p c = true → P c = true
  | .seq a b => allCls P a ∧ allCls P b
  | .alt a b => allCls P a ∧ allCls P b
  | .opt a => allCls P a
  | .repGe p _ => ∀ c, p c = true → P c = true
  | .repEx p _ => ∀ c, p c = true → P c = true

/-- Every character consumed by a semantic match satisfies every
predicate implied by all the pattern's classes. -/
theorem Sem_chars {s : List Char} (P : Char → Bool) :
    ∀ {r : Rx} {i j : Nat}, allCls P r → Sem s r i j →
      ∀ q, i ≤ q → q < j → ∃ c, s.get? q = some c ∧ P c = true := by
  intro r i j hcls hsem
  induction hsem with
  | eps => intro q h1 h2; omega
  | @cls p i c hg hp =>
      intro q h1 h2
      have : q = i := by omega
      subst this
      exact ⟨c, hg, hcls c hp⟩
  | @seq a b i m j hma hmb iha ihb =>
      intro q h1 h2
      have hm1 : i ≤ m := Sem_le hma
      have hm2 : m ≤ j := Sem_le hmb
      by_cases hq : q < m
      · exact iha hcls.1 q h1 hq
      · exact ihb hcls.2 q (by omega) h2
  | altL hma iha => exact iha hcls.1
  | altR hmb ihb => exact ihb hcls.2
  | optS hma iha => exact iha hcls
  | optN => intro q h1 h2; omega
  | bnd hb => intro q h1 h2; omega
  | @repGe p n i j hij hall =>
      intro q h1 h2
      obtain ⟨c, hg, hp⟩ := hall q h1 h2
      exact ⟨c, hg, hcls c hp⟩
  | @repEx p n i hall =>
      intro q h1 h2
      obtain ⟨c, hg, hp⟩ := hall q h1 h2
      exact ⟨c, hg, hcls c hp⟩

theorem allCls_true : ∀ r : Rx, allCls (fun _ => true) r := by
  intro r
  induction r with
  | eps => trivial
  | bnd => trivial
  | cls p => intro c _; rfl
  | seq a b iha ihb => exact ⟨iha, ihb⟩
  | alt a b iha ihb => exact ⟨iha, ihb⟩
  | opt a iha => exact iha
  | repGe p n => intro c _; rfl
  | repEx p n => intro c _; rfl

/-- Patterns that must consume at least one character satisfying
`P`. -/
inductive HasMand (P : Char → Bool) : Rx → Prop
  | cls {p : Char → Bool} : (∀ c, p c = true → P c = true) → HasMand P (.cls p)
  | seqL {a b : Rx} : HasMand P a → HasMand P (.seq a b)
  | seqR {a b : Rx} : HasMand P b → HasMand P (.seq a b)
  | alt {a b : Rx} : HasMand P a → HasMand P b → HasMand P (.alt a b)
  | repGe {p : Char → Bool} {n : Nat} :
      1 ≤ n → (∀ c, p c = true → P c = true) → HasMand P (.repGe p n)
  | repEx {p : Char → Bool} {n : Nat} :
      1 ≤ n → (∀ c, p c = true → P c = true) → HasMand P (.repEx p n)

theorem Sem_hasMand {s : List Char} {P : Char → Bool} {r : Rx}
    (hmand : HasMand P r) :
    ∀ {i j : Nat}, Sem s r i j → ∃ q c, i ≤ q ∧ q < j ∧ s.get? q = some c ∧ P c = true := by
  induction hmand with
  | @cls p himp =>
      intro i j hsem
      cases hsem with
      | cls hg hp => exact ⟨i, _, le_refl _, by omega, hg, himp _ hp⟩
  | @seqL a b hma ih =>
      intro i j hsem
      obtain ⟨m, h1, h2⟩ := Sem_seq_inv hsem
      obtain ⟨q, c, hq1, hq2, hg, hp⟩ := ih h1
      exact ⟨q, c, hq1, by have := Sem_le h2; omega, hg, hp⟩
  | @seqR a b hmb ih =>
      intro i j hsem
      obtain ⟨m, h1, h2⟩ := Sem_seq_inv hsem
      obtain ⟨q, c, hq1, hq2, hg, hp⟩ := ih h2
      exact ⟨q, c, by have := Sem_le h1; omega, hq2, hg, hp⟩
  | @alt a b hma hmb iha ihb =>
      intro i j hsem
      cases hsem with
      | altL h1 => exact iha h1
      | altR h1 => exact ihb h1
  | @repGe p n hn himp =>
      intro i j hsem
      cases hsem with
      | repGe hij hall =>
          obtain ⟨c, hg, hp⟩ := hall i (le_refl _) (by omega)
          exact ⟨i, c, le_refl _, by omega, hg, himp _ hp⟩
  | @repEx p n hn himp =>
      intro i j hsem
      cases hsem with
      | repEx hall =>
          obtain ⟨c, hg, hp⟩ := hall i (le_refl _) (by omega)
          exact ⟨i, c, le_refl _, by omega, hg, himp _ hp⟩

theorem Sem_mustConsume_lt {s : List Char} {r : Rx} (hmc : MustConsume r) :
    ∀ {i j : Nat}, Sem s r i j → i < j := by
  induction hmc with
  | cls p =>
      intro i j hsem
      cases hsem with
      | cls _ _ => omega
  | seqL hma ih =>
      intro i j hsem
      obtain ⟨m, h1, h2⟩ := Sem_seq_inv hsem
      have := Sem_le h2
      have := ih h1
      omega
  | seqR hmb ih =>
      intro i j hsem
      obtain ⟨m, h1, h2⟩ := Sem_seq_inv hsem
      have := Sem_le h1
      have := ih h2
      omega
  | alt hma hmb iha ihb =>
      intro i j hsem
      cases hsem with
      | altL h1 => exact iha h1
      | altR h1 => exact ihb h1
  | repGe p hn =>
      intro i j hsem
      cases hsem with
      | repGe hij _ => omega
  | repEx p hn =>
      intro i j hsem
      cases hsem with
      | repEx _ => omega

/-! ### Scan probes: positions the scanner passed over have no match -/

theorem scanPos_probe (s : List Char) (r : Rx) :
    ∀ f i a b, scanPos s r f i = some (a, b) →
      ∀ q, i ≤ q → q < a → matchAt s r q = none := by
  intro f
  induction f with
  | zero => intro i a b h; cases h
  | succ f ih =>
      intro i a b h q hq1 hq2
      unfold scanPos at h
      by_cases hi : i ≤ s.length
      · rw [if_pos hi] at h
        cases hm : matchAt s r i with
        | some j =>
            rw [hm] at h
            change some (i, j) = some (a, b) at h
            have : i = a := by
              injection h with h2
              exact congrArg Prod.fst h2
            omega
        | none =>
            rw [hm] at h
            change scanPos s r f (i + 1) = some (a, b) at h
            by_cases hq : q = i
            · subst hq; exact hm
            · exact ih (i + 1) a b h q (by omega) hq2
      · rw [if_neg hi] at h; cases h

theorem scanPos_none_probe (s : List Char) (r : Rx) :
    ∀ f i, scanPos s r f i = none →
      ∀ q, i ≤ q → q < i + f → q ≤ s.length → matchAt s r q = none := by
  intro f
  induction f with
  | zero => intro i _ q h1 h2; omega
  | succ f ih =>
      intro i h q hq1 hq2 hq3
      unfold scanPos at h
      by_cases hi : i ≤ s.length
      · rw [if_pos hi] at h
        cases hm : matchAt s r i with
        | some j => rw [hm] at h; cases h
        | none =>
            rw [hm] at h
            change scanPos s r f (i + 1) = none at h
            by_cases hq : q = i
            · subst hq; exact hm
            · exact ih (i + 1) h q (by omega) (by omega) hq3
      · omega

theorem matchAt_none_of_gt_len (s : List Char) (r : Rx) (hmc : MustConsume r)
    (i : Nat) (hi : s.length < i) : matchAt s r i = none := by
  cases hm : matchAt s r i with
  | none => rfl
  | some b =>
      exfalso
      obtain ⟨j, hj, _⟩ := mtch_sound s r i some b hm
      have hlt := Sem_mustConsume_lt hmc hj
      obtain ⟨c, hg, _⟩ := Sem_chars (fun _ => true) (allCls_true r) hj i (le_refl _) hlt
      have := (List.get?_eq_some.mp hg).1
      omega

theorem findFrom_none_all (s : List Char) (r : Rx) (hmc : MustConsume r)
    (h : findFrom s r 0 = none) : ∀ p, matchAt s r p = none := by
  intro p
  by_cases hp : p ≤ s.length
  · exact scanPos_none_probe s r (s.length + 1) 0 h p (by omega) (by omega) hp
  · exact matchAt_none_of_gt_len s r hmc p (by omega)

/-! ### Decomposition of the substitution output into pieces -/

/-- The pieces of a substitution pass: `(i, j, false)` is the gap
`s[i:j]` copied verbatim, `(i, j, true)` is a match `s[i:j]` replaced
by the replacement string. -/
def subPieces (s : List Char) (r : Rx) : Nat → Nat → List (Nat × Nat × Bool)
  | 0, pos => [(pos, s.length, false)]
  | f + 1, pos =>
      match findFrom s r pos with
      | none => [(pos, s.length, false)]
      | some (a, b) => (pos, a, false) :: (a, b, true) :: subPieces s r f b

/-- Render one piece. -/
def renderPiece (s repl : List Char) (pc : Nat × Nat × Bool) : List Char :=
  if pc.2.2 then repl else extract s pc.1 pc.2.1

/-- Render a piece list. -/
def renderAll (s repl : List Char) (ps : List (Nat × Nat × Bool)) : List Char :=
  (ps.map (renderPiece s repl)).flatten

theorem extract_self (s : List Char) (pos : Nat) : extract s pos s.length = s.drop pos := by
  unfold extract
  have h : (s.drop pos).length = s.length - pos := List.length_drop _ _
  rw [← h]
  exact List.take_length _

theorem extract_length (s : List Char) (i j : Nat) (h : j ≤ s.length) (hij : i ≤ j) :
    (extract s i j).length = j - i := by
  unfold extract
  rw [List.length_take, List.length_drop]
  omega

theorem subPieces_succ_eq (s : List Char) (r : Rx) (f pos : Nat) :
    subPieces s r (f + 1) pos =
      match findFrom s r pos with
      | none => [(pos, s.length, false)]
      | some (a, b) => (pos, a, false) :: (a, b, true) :: subPieces s r f b := rfl

theorem subLoop_eq_renderAll (s : List Char) (r : Rx) (repl : List Char) :
    ∀ f pos, subLoop s r repl f pos = renderAll s repl (subPieces s r f pos) := by
  intro f
  induction f with
  | zero =>
      intro pos
      show s.drop pos = renderAll s repl [(pos, s.length, false)]
      simp [renderAll, renderPiece, extract_self]
  | succ f ih =>
      intro pos
      rw [subLoop_succ_eq]
      cases hf : findFrom s r pos with
      | none =>
          show s.drop pos = renderAll s repl (subPieces s r (f + 1) pos)
          rw [show subPieces s r (f + 1) pos = [(pos, s.length, false)] from by
            rw [subPieces_succ_eq, hf]]
          simp [renderAll, renderPiece, extract_self]
      | some ab =>
          obtain ⟨a, b⟩ := ab
          show extract s pos a ++ repl ++ subLoop s r repl f b =
            renderAll s repl (subPieces s r (f + 1) pos)
          rw [show subPieces s r (f + 1) pos =
              (pos, a, false) :: (a, b, true) :: subPieces s r f b from by
            rw [subPieces_succ_eq, hf]]
          rw [ih b]
          simp [renderAll, renderPiece]

/-- Validity of a piece list starting at source position `pos`:
pieces are contiguous, gaps contain only probed (matchless)
positions, and `true` pieces are actual matches. -/
inductive PiecesOK (s : List Char) (r : Rx) : List (Nat × Nat × Bool) → Nat → Prop
  | last {pos : Nat} :
      pos ≤ s.length →
      (∀ q, pos ≤ q → matchAt s r q = none) →
      PiecesOK s r [(pos, s.length, false)] pos
  | step {pos a b : Nat} {rest : List (Nat × Nat × Bool)} :
      pos ≤ a → a ≤ s.length → a < b → b ≤ s.length →
      (∀ q, pos ≤ q → q < a → matchAt s r q = none) →
      matchAt s r a = some b →
      PiecesOK s r rest b →
      PiecesOK s r ((pos, a, false) :: (a, b, true) :: rest) pos

theorem subPieces_ok (s : List Char) (r : Rx) (hmc : MustConsume r) :
    ∀ f pos, s.length + 1 ≤ f + pos → pos ≤ s.length →
      PiecesOK s r (subPieces s r f pos) pos := by
  intro f
  induction f with
  | zero => intro pos h1 h2; omega
  | succ f ih =>
      intro pos h1 h2
      cases hf : findFrom s r pos with
      | none =>
          rw [show subPieces s r (f + 1) pos = [(pos, s.length, false)] from by
            rw [subPieces_succ_eq, hf]]
          refine PiecesOK.last h2 ?_
          intro q hq
          by_cases hql : q ≤ s.length
          · exact scanPos_none_probe s r _ pos hf q hq (by omega) hql
          · exact matchAt_none_of_gt_len s r hmc q (by omega)
      | some ab =>
          obtain ⟨a, b⟩ := ab
          rw [show subPieces s r (f + 1) pos =
              (pos, a, false) :: (a, b, true) :: subPieces s r f b from by
            rw [subPieces_succ_eq, hf]]
          obtain ⟨hposa, halen, hm⟩ := findFrom_spec s r pos a b hf
          obtain ⟨j1, hj1, hj1e⟩ := mtch_mustConsume s hmc a some b hm
          have hab : a < b := by
            have : j1 = b := by injection hj1e
            omega
          obtain ⟨j2, _, hj2len, hj2e⟩ := mtch_some_bound s r a some b halen hm
          have hblen : b ≤ s.length := by
            have : j2 = b := by injection hj2e
            omega
          refine PiecesOK.step hposa halen hab hblen ?_ hm ?_
          · exact scanPos_probe s r _ pos a b hf
          · exact ih b (by omega) hblen

/-- Every gap of the piece list consists of positions where `r'` has
no match (in `s`). -/
def GapsNone (s : List Char) (r' : Rx) : List (Nat × Nat × Bool) → Prop
  | [] => True
  | (i, j, isR) :: rest =>
      (isR = false → ∀ q, i ≤ q → q < j → matchAt s r' q = none) ∧ GapsNone s r' rest

theorem gapsNone_of_self (s : List Char) (r : Rx) :
    ∀ ps pos, PiecesOK s r ps pos → GapsNone s r ps := by
  intro ps pos h
  induction h with
  | last hlen hprobe =>
      simp only [GapsNone]
      exact ⟨fun _ q hq _ => hprobe q hq, trivial⟩
  | step h1 h2 h3 h4 hprobe hm hrest ih =>
      simp only [GapsNone]
      refine ⟨fun _ q hq1 hq2 => hprobe q hq1 hq2, ?_, ih⟩
      intro hcon
      exact absurd hcon (by decide)

theorem gapsNone_of_global (s : List Char) (r' : Rx)
    (h : ∀ q, matchAt s r' q = none) :
    ∀ ps : List (Nat × Nat × Bool), GapsNone s r' ps := by
  intro ps
  induction ps with
  | nil => trivial
  | cons pc rest ih =>
      obtain ⟨i, jb⟩ := pc
      obtain ⟨j, isR⟩ := jb
      simp only [GapsNone]
      exact ⟨fun _ q _ _ => h q, ih⟩

theorem prevWordAt_pos (t : List Char) (m : Nat) (h : 0 < m) :
    prevWordAt t m = wordAt t (m - 1) := by
  cases m with
  | zero => omega
  | succ m' => rfl

theorem get?_append_off (A B : List Char) (d : Nat) :
    (A ++ B).get? (A.length + d) = B.get? d := by
  rw [List.get?_append_right (by omega)]
  congr 1
  omega

theorem extract_get (s : List Char) (i j d : Nat) (hd : d < j - i) (hj : j ≤ s.length) :
    (extract s i j).get? d = s.get? (i + d) := by
  unfold extract
  rw [List.get?_take hd, List.get?_drop]

theorem Sem_matchAt_ne_none {s : List Char} {r : Rx} {i j : Nat}
    (h : Sem s r i j) : ¬ matchAt s r i = none := by
  intro hcon
  obtain ⟨b, hb⟩ := mtch_complete s r i j h some j rfl
  have : matchAt s r i = some b := hb
  rw [hcon] at this
  cases this

theorem wordAt_of_ge_len (t : List Char) (m : Nat) (h : t.length ≤ m) :
    wordAt t m = false := by
  unfold wordAt
  rw [List.get?_eq_none.mpr h]

/-- Master lemma for idempotence: in the output of one substitution
pass (prefix `A` already emitted, remaining pieces `ps`), the pattern
`r'` has no match starting at or after `A`, provided `r'` has no
match at the gap positions of the input, both patterns delimit their
matches with word boundaries, and the replacement is bracketed,
non-empty and free of `r'`-mandatory characters. -/
theorem walk (s : List Char) (r r' : Rx) (repl : List Char) (mnd : Char → Bool)
    (hbnds_r : ∀ i j, Sem s r i j → boundary s i = true ∧ boundary s j = true)
    (hbnds_r' : ∀ (t : List Char) (i j : Nat), Sem t r' i j →
      boundary t i = true ∧ boundary t j = true)
    (hmc' : MustConsume r')
    (hnbr' : allCls (fun c => !(c = '[' || c = ']')) r')
    (hmnd' : HasMand mnd r')
    (hmnd_repl : ∀ c ∈ repl, mnd c = false)
    (hrepl_head : repl.get? 0 = some '[')
    (hrepl_last : repl.get? (repl.length - 1) = some ']')
    (hrepl_ne : repl ≠ []) :
    ∀ ps pos, PiecesOK s r ps pos → GapsNone s r' ps →
      ∀ A : List Char,
        ((A = [] ∧ pos = 0) ∨
          (A.get? (A.length - 1) = some ']' ∧ A ≠ [] ∧ boundary s pos = true)) →
        ∀ p b', A.length ≤ p → Sem (A ++ renderAll s repl ps) r' p b' → False := by
  have hreplpos : 1 ≤ repl.length := by
    cases repl with
    | nil => exact absurd rfl hrepl_ne
    | cons c t => simp
  intro ps pos hok
  induction hok with
  | @last pos hplen hprobe =>
      intro hgaps A hctx p b' hpA hsem
      rw [show renderAll s repl [(pos, s.length, false)] = extract s pos s.length from by
        simp [renderAll, renderPiece]] at hsem
      have hlt : p < b' := Sem_mustConsume_lt hmc' hsem
      obtain ⟨hbp, hbb⟩ := hbnds_r' _ p b' hsem
      have hglen : (extract s pos s.length).length = s.length - pos :=
        extract_length s pos s.length (le_refl _) hplen
      have hOlen : (A ++ extract s pos s.length).length = A.length + (s.length - pos) := by
        rw [List.length_append, hglen]
      have hchars := Sem_chars (fun c => !(c = '[' || c = ']')) hnbr' hsem
      have hble : b' ≤ A.length + (s.length - pos) := by
        obtain ⟨c, hg, _⟩ := hchars (b' - 1) (by omega) (by omega)
        have := (List.get?_eq_some.mp hg).1
        rw [hOlen] at this
        omega
      have hmap : ∀ q, A.length ≤ q → q < A.length + (s.length - pos) →
          (A ++ extract s pos s.length).get? q = s.get? (q - A.length + pos) := by
        intro q h1 h2
        rw [show q = A.length + (q - A.length) from by omega, get?_append_off]
        rw [extract_get s pos s.length _ (by omega) (le_refl _)]
        congr 1
        omega
      have hlb : boundary (A ++ extract s pos s.length) p =
          boundary s (p - A.length + pos) := by
        by_cases hpg : A.length < p
        · have h1 : wordAt (A ++ extract s pos s.length) p = wordAt s (p - A.length + pos) :=
            wordAt_eq_of_get _ _ _ _ (hmap p (by omega) (by omega))
          have h2 : prevWordAt (A ++ extract s pos s.length) p =
              prevWordAt s (p - A.length + pos) := by
            rw [prevWordAt_pos _ p (by omega), prevWordAt_pos s _ (by omega)]
            have h3 := hmap (p - 1) (by omega) (by omega)
            rw [show p - 1 - A.length + pos = p - A.length + pos - 1 from by omega] at h3
            exact wordAt_eq_of_get _ _ _ _ h3
          unfold boundary
          rw [h1, h2]
        · have hpeq : p = A.length := by omega
          rcases hctx with ⟨hA, hpos⟩ | ⟨hAlast, hAne, hbpos⟩
          · have hA0 : A.length = 0 := by rw [hA]; rfl
            have hp0 : p = 0 := by omega
            have hw : wordAt (A ++ extract s pos s.length) 0 = wordAt s 0 := by
              have h3 := hmap 0 (by omega) (by omega)
              rw [show (0 : Nat) - A.length + pos = 0 from by omega] at h3
              exact wordAt_eq_of_get _ _ _ _ h3
            unfold boundary
            rw [hp0, show (0 : Nat) - A.length + pos = 0 from by omega, hw]
            rfl
          · have hs : boundary s pos = true := hbpos
            rw [hbp, show p - A.length + pos = pos from by omega, hs]
      have hrb : boundary (A ++ extract s pos s.length) b' =
          boundary s (b' - A.length + pos) := by
        by_cases hbe : b' < A.length + (s.length - pos)
        · have h1 : wordAt (A ++ extract s pos s.length) b' = wordAt s (b' - A.length + pos) :=
            wordAt_eq_of_get _ _ _ _ (hmap b' (by omega) (by omega))
          have h2 : prevWordAt (A ++ extract s pos s.length) b' =
              prevWordAt s (b' - A.length + pos) := by
            rw [prevWordAt_pos _ b' (by omega), prevWordAt_pos s _ (by omega)]
            have h3 := hmap (b' - 1) (by omega) (by omega)
            rw [show b' - 1 - A.length + pos = b' - A.length + pos - 1 from by omega] at h3
            exact wordAt_eq_of_get _ _ _ _ h3
          unfold boundary
          rw [h1, h2]
        · have hbeq : b' = A.length + (s.length - pos) := by omega
          have hb2 : b' - A.length + pos = s.length := by omega
          have h1 : wordAt (A ++ extract s pos s.length) b' = false :=
            wordAt_of_ge_len _ _ (by rw [hOlen]; omega)
          have h1' : wordAt s s.length = false := wordAt_of_ge_len _ _ (le_refl _)
          have h2 : prevWordAt (A ++ extract s pos s.length) b' =
              prevWordAt s s.length := by
            rw [prevWordAt_pos _ b' (by omega), prevWordAt_pos s _ (by omega)]
            have h3 := hmap (b' - 1) (by omega) (by omega)
            rw [show b' - 1 - A.length + pos = s.length - 1 from by omega] at h3
            exact wordAt_eq_of_get _ _ _ _ h3
          unfold boundary
          rw [hb2, h1, h1', h2]
      have hwin : ∀ q, p ≤ q → q < b' →
          (A ++ extract s pos s.length).get? q = s.get? (q - p + (p - A.length + pos)) := by
        intro q h1 h2
        rw [show q - p + (p - A.length + pos) = q - A.length + pos from by omega]
        exact hmap q (by omega) (by omega)
      have hrb' : boundary (A ++ extract s pos s.length) b' =
          boundary s (b' - p + (p - A.length + pos)) := by
        rw [show b' - p + (p - A.length + pos) = b' - A.length + pos from by omega]
        exact hrb
      have htr := Sem_transfer (A ++ extract s pos s.length) s p b' (p - A.length + pos)
        hwin hlb hrb' r' p b' hsem (le_refl _) (le_refl _)
      rw [show p - p + (p - A.length + pos) = p - A.length + pos from by omega,
        show b' - p + (p - A.length + pos) = b' - A.length + pos from by omega] at htr
      obtain ⟨hgap1, -⟩ := hgaps
      exact Sem_matchAt_ne_none htr (hgap1 rfl (p - A.length + pos) (by omega) (by omega))
  | @step pos a b rest hposa halen hab hblen hprobe hm hrest ih =>
      intro hgaps A hctx p b' hpA hsem
      rw [show renderAll s repl ((pos, a, false) :: (a, b, true) :: rest) =
          extract s pos a ++ (repl ++ renderAll s repl rest) from by
        simp [renderAll, renderPiece]] at hsem
      have hlt : p < b' := Sem_mustConsume_lt hmc' hsem
      obtain ⟨hbp, hbb⟩ := hbnds_r' _ p b' hsem
      have hE1len : (extract s pos a).length = a - pos := extract_length s pos a halen hposa
      obtain ⟨jm, hsemR, hjm⟩ := mtch_sound s r a some b hm
      have hjmb : jm = b := by injection hjm
      rw [hjmb] at hsemR
      obtain ⟨hba1, hba2⟩ := hbnds_r a b hsemR
      have hchars := Sem_chars (fun c => !(c = '[' || c = ']')) hnbr' hsem
      have hmapG : ∀ q, A.length ≤ q → q < A.length + (a - pos) →
          (A ++ (extract s pos a ++ (repl ++ renderAll s repl rest))).get? q =
            s.get? (q - A.length + pos) := by
        intro q h1 h2
        rw [show q = A.length + (q - A.length) from by omega, get?_append_off]
        rw [List.get?_append (by rw [hE1len]; omega)]
        rw [extract_get s pos a _ (by omega) halen]
        congr 1
        omega
      have hmapR : ∀ d, d < repl.length →
          (A ++ (extract s pos a ++ (repl ++ renderAll s repl rest))).get?
            (A.length + (a - pos) + d) = repl.get? d := by
        intro d hd
        rw [show A.length + (a - pos) + d = A.length + ((a - pos) + d) from by omega,
          get?_append_off]
        rw [show (a - pos) + d = (extract s pos a).length + d from by rw [hE1len]]
        rw [get?_append_off]
        exact List.get?_append hd
      by_cases hp1 : p < A.length + (a - pos)
      · by_cases hb1 : b' ≤ A.length + (a - pos)
        · -- candidate fully inside the gap: transfer to `s`
          have hlb : boundary (A ++ (extract s pos a ++ (repl ++ renderAll s repl rest))) p =
              boundary s (p - A.length + pos) := by
            by_cases hpg : A.length < p
            · have h1 := wordAt_eq_of_get _ s p (p - A.length + pos) (hmapG p (by omega) (by omega))
              have h2 : prevWordAt (A ++ (extract s pos a ++ (repl ++ renderAll s repl rest))) p =
                  prevWordAt s (p - A.length + pos) := by
                rw [prevWordAt_pos _ p (by omega), prevWordAt_pos s _ (by omega)]
                have h3 := hmapG (p - 1) (by omega) (by omega)
                rw [show p - 1 - A.length + pos = p - A.length + pos - 1 from by omega] at h3
                exact wordAt_eq_of_get _ _ _ _ h3
              unfold boundary
              rw [h1, h2]
            · have hpeq : p = A.length := by omega
              rcases hctx with ⟨hA, hpos⟩ | ⟨hAlast, hAne, hbpos⟩
              · have hA0 : A.length = 0 := by rw [hA]; rfl
                have hp0 : p = 0 := by omega
                have hw := wordAt_eq_of_get _ s 0 (0 - A.length + pos)
                  (hmapG 0 (by omega) (by omega))
                unfold boundary
                rw [hp0, hw, show (0 : Nat) - A.length + pos = 0 from by omega]
                rfl
              · rw [hbp, show p - A.length + pos = pos from by omega, hbpos]
          have hrb : boundary (A ++ (extract s pos a ++ (repl ++ renderAll s repl rest))) b' =
              boundary s (b' - A.length + pos) := by
            by_cases hbe : b' < A.length + (a - pos)
            · have h1 := wordAt_eq_of_get _ s b' (b' - A.length + pos)
                (hmapG b' (by omega) (by omega))
              have h2 : prevWordAt (A ++ (extract s pos a ++ (repl ++ renderAll s repl rest))) b' =
                  prevWordAt s (b' - A.length + pos) := by
                rw [prevWordAt_pos _ b' (by omega), prevWordAt_pos s _ (by omega)]
                have h3 := hmapG (b' - 1) (by omega) (by omega)
                rw [show b' - 1 - A.length + pos = b' - A.length + pos - 1 from by omega] at h3
                exact wordAt_eq_of_get _ _ _ _ h3
              unfold boundary
              rw [h1, h2]
            · have hbeq : b' = A.length + (a - pos) := by omega
              rw [hbb, show b' - A.length + pos = a from by omega, hba1]
          have hwin : ∀ q, p ≤ q → q < b' →
              (A ++ (extract s pos a ++ (repl ++ renderAll s repl rest))).get? q =
                s.get? (q - p + (p - A.length + pos)) := by
            intro q h1 h2
            rw [show q - p + (p - A.length + pos) = q - A.length + pos from by omega]
            exact hmapG q (by omega) (by omega)
          have hrb' : boundary (A ++ (extract s pos a ++ (repl ++ renderAll s repl rest))) b' =
              boundary s (b' - p + (p - A.length + pos)) := by
            rw [show b' - p + (p - A.length + pos) = b' - A.length + pos from by omega]
            exact hrb
          have htr := Sem_transfer _ s p b' (p - A.length + pos)
            hwin hlb hrb' r' p b' hsem (le_refl _) (le_refl _)
          rw [show p - p + (p - A.length + pos) = p - A.length + pos from by omega,
            show b' - p + (p - A.length + pos) = b' - A.length + pos from by omega] at htr
          obtain ⟨hgap1, -⟩ := hgaps
          exact Sem_matchAt_ne_none htr
            (hgap1 rfl (p - A.length + pos) (by omega) (by omega))
        · -- candidate crosses into the placeholder: it would contain `[`
          obtain ⟨c, hg, hc⟩ := hchars (A.length + (a - pos)) (by omega) (by omega)
          have hg0 := hmapR 0 (by omega)
          rw [show A.length + (a - pos) + 0 = A.length + (a - pos) from by omega] at hg0
          rw [hg0, hrepl_head] at hg
          have hcb : c = '[' := by injection hg with h; exact h.symm
          subst hcb
          simp at hc
      · by_cases hp2 : p < A.length + (a - pos) + repl.length
        · by_cases hb2 : b' ≤ A.length + (a - pos) + repl.length
          · -- candidate inside the placeholder: no mandatory character there
            obtain ⟨q, c, hq1, hq2, hg, hc⟩ := Sem_hasMand hmnd' hsem
            rw [show q = A.length + (a - pos) + (q - (A.length + (a - pos))) from by omega,
              hmapR _ (by omega)] at hg
            have hcm : c ∈ repl := List.get?_mem hg
            rw [hmnd_repl c hcm] at hc
            cases hc
          · -- candidate crosses out of the placeholder: it would contain `]`
            obtain ⟨c, hg, hc⟩ := hchars (A.length + (a - pos) + (repl.length - 1))
              (by omega) (by omega)
            rw [hmapR (repl.length - 1) (by omega)] at hg
            rw [hrepl_last] at hg
            have : c = ']' := by injection hg with h; exact h.symm
            subst this
            simp at hc
        · -- candidate lies beyond the placeholder: recurse
          have hgaps' : GapsNone s r' rest := hgaps.2.2
          have hA'len : (A ++ extract s pos a ++ repl).length =
              A.length + (a - pos) + repl.length := by
            simp [hE1len]
            omega
          have hsem' : Sem ((A ++ extract s pos a ++ repl) ++ renderAll s repl rest) r' p b' := by
            rw [show (A ++ extract s pos a ++ repl) ++ renderAll s repl rest =
              A ++ (extract s pos a ++ (repl ++ renderAll s repl rest)) from by
                simp [List.append_assoc]]
            exact hsem
          have hple : (A ++ extract s pos a ++ repl).length ≤ p := by
            rw [hA'len]
            omega
          refine ih hgaps' (A ++ extract s pos a ++ repl) (Or.inr ⟨?_, ?_, hba2⟩) p b'
            hple hsem'
          · rw [hA'len]
            rw [show A.length + (a - pos) + repl.length - 1 =
              (A ++ extract s pos a).length + (repl.length - 1) from by simp [hE1len]; omega]
            rw [get?_append_off]
            exact hrepl_last
          · intro hcon
            rw [hcon] at hA'len
            simp at hA'len
            omega

/-! ### Instances of the walk hypotheses for the four PII patterns -/

theorem cls_noBr {p : Char → Bool} (h1 : p '[' = false) (h2 : p ']' = false) :
    ∀ c, p c = true → (!(c = '[' || c = ']')) = true := by
  intro c hc
  by_cases e1 : c = '['
  · subst e1
    rw [h1] at hc
    cases hc
  · by_cases e2 : c = ']'
    · subst e2
      rw [h2] at hc
      cases hc
    · simp [e1, e2]

theorem emailRx_noBr : allCls (fun c => !(c = '[' || c = ']')) emailRx :=
  ⟨trivial, cls_noBr (by decide) (by decide), cls_noBr (by decide) (by decide),
    cls_noBr (by decide) (by decide), cls_noBr (by decide) (by decide),
    cls_noBr (by decide) (by decide), trivial⟩

theorem ccGroup_noBr : allCls (fun c => !(c = '[' || c = ']')) ccGroup :=
  ⟨cls_noBr (by decide) (by decide), cls_noBr (by decide) (by decide)⟩

theorem ccRx_noBr : allCls (fun c => !(c = '[' || c = ']')) ccRx :=
  ⟨trivial, ccGroup_noBr, ccGroup_noBr, ccGroup_noBr,
    cls_noBr (by decide) (by decide), trivial⟩

theorem phoneRx_noBr : allCls (fun c => !(c = '[' || c = ']')) phoneRx :=
  ⟨trivial,
    ⟨cls_noBr (by decide) (by decide), cls_noBr (by decide) (by decide),
      cls_noBr (by decide) (by decide)⟩,
    cls_noBr (by decide) (by decide), cls_noBr (by decide) (by decide),
    cls_noBr (by decide) (by decide), cls_noBr (by decide) (by decide),
    cls_noBr (by decide) (by decide), cls_noBr (by decide) (by decide),
    cls_noBr (by decide) (by decide), trivial⟩

theorem ssnRx_noBr : allCls (fun c => !(c = '[' || c = ']')) ssnRx :=
  ⟨trivial, cls_noBr (by decide) (by decide), cls_noBr (by decide) (by decide),
    cls_noBr (by decide) (by decide), cls_noBr (by decide) (by decide),
    cls_noBr (by decide) (by decide), trivial⟩

theorem emailRx_mand : HasMand (fun c => c = '@') emailRx :=
  .seqR (.seqR (.seqL (.cls (fun _ hc => hc))))

theorem ccRx_mand : HasMand digitCls ccRx :=
  .seqR (.seqL (.seqL (.repEx (by omega) (fun _ hc => hc))))

theorem phoneRx_mand : HasMand digitCls phoneRx :=
  .seqR (.seqR (.seqR (.seqL (.repEx (by omega) (fun _ hc => hc)))))

theorem ssnRx_mand : HasMand digitCls ssnRx :=
  .seqR (.seqL (.repEx (by omega) (fun _ hc => hc)))

theorem placeholder_head (nm : List Char) : (placeholder nm).get? 0 = some '[' := rfl

theorem placeholder_ne (nm : List Char) : placeholder nm ≠ [] := by
  show '[' :: (nm ++ "_REMOVED]".data) ≠ []
  exact List.cons_ne_nil _ _

theorem placeholder_last (nm : List Char) :
    (placeholder nm).get? ((placeholder nm).length - 1) = some ']' := by
  show ('[' :: (nm ++ "_REMOVED]".data)).get?
    (('[' :: (nm ++ "_REMOVED]".data)).length - 1) = some ']'
  have hD : ("_REMOVED]".data).length = 9 := rfl
  rw [List.length_cons, List.length_append, hD]
  rw [show nm.length + 9 + 1 - 1 = nm.length + 8 + 1 from by omega, List.get?_cons_succ]
  rw [get?_append_off]
  rfl

/-! ### No pattern matches the output of a substitution pass -/

theorem pysub_no_match (s : List Char) (r r' : Rx) (repl : List Char) (mnd : Char → Bool)
    (hmc : MustConsume r)
    (hbr : ∀ (t : List Char) (i j : Nat), Sem t r i j →
      boundary t i = true ∧ boundary t j = true)
    (hbr' : ∀ (t : List Char) (i j : Nat), Sem t r' i j →
      boundary t i = true ∧ boundary t j = true)
    (hmc' : MustConsume r')
    (hnbr' : allCls (fun c => !(c = '[' || c = ']')) r')
    (hmnd' : HasMand mnd r')
    (hmnd_repl : ∀ c ∈ repl, mnd c = false)
    (hrepl_head : repl.get? 0 = some '[')
    (hrepl_last : repl.get? (repl.length - 1) = some ']')
    (hrepl_ne : repl ≠ [])
    (hgaps : GapsNone s r' (subPieces s r (s.length + 1) 0)) :
    ∀ q, matchAt (pysub r repl s) r' q = none := by
  intro q
  cases hm : matchAt (pysub r repl s) r' q with
  | none => rfl
  | some b =>
      exfalso
      obtain ⟨j, hj, _⟩ := mtch_sound _ r' q some b hm
      have hok := subPieces_ok s r hmc (s.length + 1) 0 (by omega) (by omega)
      have hrw : pysub r repl s = [] ++ renderAll s repl (subPieces s r (s.length + 1) 0) := by
        rw [List.nil_append]
        exact subLoop_eq_renderAll s r repl (s.length + 1) 0
      rw [hrw] at hj
      exact walk s r r' repl mnd (fun i j h => hbr s i j h) hbr' hmc' hnbr' hmnd'
        hmnd_repl hrepl_head hrepl_last hrepl_ne _ 0 hok hgaps []
        (Or.inl ⟨rfl, rfl⟩) q j (by simp) hj

/-- One entry of the `remove_pii` fold. -/
def piiStep (nm : List Char) (r : Rx) (d : List Char) : List Char :=
  if (findFrom d r 0).isSome then pysub r (placeholder nm) d else d

theorem removePiiDoc_eq_steps (doc : List Char) :
    removePiiDoc doc =
      piiStep "SSN".data ssnRx (piiStep "PHONE".data phoneRx
        (piiStep "CREDIT_CARD".data ccRx (piiStep "EMAIL".data emailRx doc))) := rfl

theorem piiStep_self (t nm : List Char) (r : Rx) (mnd : Char → Bool)
    (hmc : MustConsume r)
    (hbr : ∀ (u : List Char) (i j : Nat), Sem u r i j →
      boundary u i = true ∧ boundary u j = true)
    (hnbr : allCls (fun c => !(c = '[' || c = ']')) r)
    (hmnd : HasMand mnd r)
    (hmnd_repl : ∀ c ∈ placeholder nm, mnd c = false) :
    ∀ q, matchAt (piiStep nm r t) r q = none := by
  unfold piiStep
  by_cases hf : (findFrom t r 0).isSome
  · rw [if_pos hf]
    exact pysub_no_match t r r (placeholder nm) mnd hmc hbr hbr hmc hnbr hmnd
      hmnd_repl (placeholder_head nm) (placeholder_last nm) (placeholder_ne nm)
      (gapsNone_of_self t r _ 0 (subPieces_ok t r hmc (t.length + 1) 0 (by omega) (by omega)))
  · rw [if_neg hf]
    exact findFrom_none_all t r hmc (Option.not_isSome_iff_eq_none.mp hf)

theorem piiStep_preserve (t nm : List Char) (r r' : Rx) (mnd' : Char → Bool)
    (hmc : MustConsume r)
    (hbr : ∀ (u : List Char) (i j : Nat), Sem u r i j →
      boundary u i = true ∧ boundary u j = true)
    (hbr' : ∀ (u : List Char) (i j : Nat), Sem u r' i j →
      boundary u i = true ∧ boundary u j = true)
    (hmc' : MustConsume r')
    (hnbr' : allCls (fun c => !(c = '[' || c = ']')) r')
    (hmnd' : HasMand mnd' r')
    (hmnd_repl : ∀ c ∈ placeholder nm, mnd' c = false)
    (hnone : ∀ q, matchAt t r' q = none) :
    ∀ q, matchAt (piiStep nm r t) r' q = none := by
  unfold piiStep
  by_cases hf : (findFrom t r 0).isSome
  · rw [if_pos hf]
    exact pysub_no_match t r r' (placeholder nm) mnd' hmc hbr hbr' hmc' hnbr' hmnd'
      hmnd_repl (placeholder_head nm) (placeholder_last nm) (placeholder_ne nm)
      (gapsNone_of_global t r' hnone _)
  · rw [if_neg hf]
    exact hnone

theorem scanPos_none_of_all (s : List Char) (r : Rx) (h : ∀ q, matchAt s r q = none) :
    ∀ f i, scanPos s r f i = none := by
  intro f
  induction f with
  | zero => intro i; rfl
  | succ f ih =>
      intro i
      unfold scanPos
      by_cases hi : i ≤ s.length
      · rw [if_pos hi, h i]
        exact ih (i + 1)
      · rw [if_neg hi]

theorem piiStep_id (nm : List Char) (r : Rx) (d : List Char)
    (h : findFrom d r 0 = none) : piiStep nm r d = d := by
  unfold piiStep
  rw [h]
  rfl

/-- Idempotence of `remove_pii` on one document. -/
theorem removePiiDoc_idem (doc : List Char) :
    removePiiDoc (removePiiDoc doc) = removePiiDoc doc := by
  obtain ⟨t1, ht1⟩ : ∃ u, piiStep "EMAIL".data emailRx doc = u := ⟨_, rfl⟩
  obtain ⟨t2, ht2⟩ : ∃ u, piiStep "CREDIT_CARD".data ccRx t1 = u := ⟨_, rfl⟩
  obtain ⟨t3, ht3⟩ : ∃ u, piiStep "PHONE".data phoneRx t2 = u := ⟨_, rfl⟩
  obtain ⟨t4, ht4⟩ : ∃ u, piiStep "SSN".data ssnRx t3 = u := ⟨_, rfl⟩
  have hD : removePiiDoc doc = t4 := by
    rw [removePiiDoc_eq_steps doc, ht1, ht2, ht3, ht4]
  have hbe : ∀ (u : List Char) (i j : Nat), Sem u emailRx i j →
      boundary u i = true ∧ boundary u j = true := fun u i j h => Sem_email_bnds h
  have hbc : ∀ (u : List Char) (i j : Nat), Sem u ccRx i j →
      boundary u i = true ∧ boundary u j = true := fun u i j h => Sem_cc_bnds h
  have hbp : ∀ (u : List Char) (i j : Nat), Sem u phoneRx i j →
      boundary u i = true ∧ boundary u j = true := fun u i j h => Sem_phone_bnds h
  have hbs : ∀ (u : List Char) (i j : Nat), Sem u ssnRx i j →
      boundary u i = true ∧ boundary u j = true := fun u i j h => Sem_ssn_bnds h
  have he1 : ∀ q, matchAt t1 emailRx q = none := by
    rw [← ht1]
    exact piiStep_self doc "EMAIL".data emailRx (fun c => c = '@') mustConsume_emailRx
      hbe emailRx_noBr emailRx_mand (by decide)
  have he2 : ∀ q, matchAt t2 emailRx q = none := by
    rw [← ht2]
    exact piiStep_preserve t1 "CREDIT_CARD".data ccRx emailRx (fun c => c = '@')
      mustConsume_ccRx hbc hbe mustConsume_emailRx emailRx_noBr emailRx_mand
      (by decide) he1
  have he3 : ∀ q, matchAt t3 emailRx q = none := by
    rw [← ht3]
    exact piiStep_preserve t2 "PHONE".data phoneRx emailRx (fun c => c = '@')
      mustConsume_phoneRx hbp hbe mustConsume_emailRx emailRx_noBr emailRx_mand
      (by decide) he2
  have he4 : ∀ q, matchAt t4 emailRx q = none := by
    rw [← ht4]
    exact piiStep_preserve t3 "SSN".data ssnRx emailRx (fun c => c = '@')
      mustConsume_ssnRx hbs hbe mustConsume_emailRx emailRx_noBr emailRx_mand
      (by decide) he3
  have hc2 : ∀ q, matchAt t2 ccRx q = none := by
    rw [← ht2]
    exact piiStep_self t1 "CREDIT_CARD".data ccRx digitCls mustConsume_ccRx
      hbc ccRx_noBr ccRx_mand (by decide)
  have hc3 : ∀ q, matchAt t3 ccRx q = none := by
    rw [← ht3]
    exact piiStep_preserve t2 "PHONE".data phoneRx ccRx digitCls
      mustConsume_phoneRx hbp hbc mustConsume_ccRx ccRx_noBr ccRx_mand
      (by decide) hc2
  have hc4 : ∀ q, matchAt t4 ccRx q = none := by
    rw [← ht4]
    exact piiStep_preserve t3 "SSN".data ssnRx ccRx digitCls
      mustConsume_ssnRx hbs hbc mustConsume_ccRx ccRx_noBr ccRx_mand
      (by decide) hc3
  have hp3 : ∀ q, matchAt t3 phoneRx q = none := by
    rw [← ht3]
    exact piiStep_self t2 "PHONE".data phoneRx digitCls mustConsume_phoneRx
      hbp phoneRx_noBr phoneRx_mand (by decide)
  have hp4 : ∀ q, matchAt t4 phoneRx q = none := by
    rw [← ht4]
    exact piiStep_preserve t3 "SSN".data ssnRx phoneRx digitCls
      mustConsume_ssnRx hbs hbp mustConsume_phoneRx phoneRx_noBr phoneRx_mand
      (by decide) hp3
  have hs4 : ∀ q, matchAt t4 ssnRx q = none := by
    rw [← ht4]
    exact piiStep_self t3 "SSN".data ssnRx digitCls mustConsume_ssnRx
      hbs ssnRx_noBr ssnRx_mand (by decide)
  have hfe : findFrom t4 emailRx 0 = none := scanPos_none_of_all t4 emailRx he4 _ 0
  have hfc : findFrom t4 ccRx 0 = none := scanPos_none_of_all t4 ccRx hc4 _ 0
  have hfp : findFrom t4 phoneRx 0 = none := scanPos_none_of_all t4 phoneRx hp4 _ 0
  have hfs : findFrom t4 ssnRx 0 = none := scanPos_none_of_all t4 ssnRx hs4 _ 0
  rw [hD, removePiiDoc_eq_steps t4, piiStep_id _ _ _ hfe, piiStep_id _ _ _ hfc,
    piiStep_id _ _ _ hfp, piiStep_id _ _ _ hfs]

/-- C7: the PII redactor is idempotent: for every input document,
applying `remove_pii` to its own output yields that output unchanged
(no placeholder string is itself matched by any registered PII
pattern), both per document and over a document list. -/
theorem removePii_idempotent :
    (∀ doc : List Char, removePiiDoc (removePiiDoc doc) = removePiiDoc doc) ∧
    (∀ docs : List (List Char), removePii (removePii docs) = removePii docs) := by
  refine ⟨removePiiDoc_idem, ?_⟩
  intro docs
  induction docs with
  | nil => rfl
  | cons d rest ih =>
      show removePiiDoc (removePiiDoc d) :: removePii (removePii rest) =
        removePiiDoc d :: removePii rest
      rw [removePiiDoc_idem d, ih]

end DataCleaning
